import Mathlib

/-!
# Verification of the YOOM workflow-session core

A shallow embedding of the repository's two core subsystems:

* the **workflow session state machine** (`src/features/yoom-session/`:
  `types.ts` and the session persistence module with `createSession`,
  `updateSession`, `completeCurrentStep`, `startNextFeature`,
  `formatSessionMarkdown`, `parseSessionMarkdown`, `loadSession`,
  `saveSession`), and
* the **framework detection / rule composition** subsystem (`src/rules/`:
  `index.ts` with `detectFramework` and `combineRules`, plus the static
  framework configuration tables).

Strings are modelled as `List Char` (`Str`), so every definition is
executable and every concrete run can be checked by kernel reduction.
The file system is modelled at the granularity the code observes: the
session file is an optional string (or an optional in-memory session for
the state-machine operations, justified by the persistence analysis), and
a project root is a record of the facts the detector predicates query.
-/

namespace Yoom

/-- Character-list strings: the executable string model used throughout. -/
abbrev Str := List Char

/-- Coerce a Lean string literal into the `Str` model. -/
def str (s : String) : Str := s.toList

/-! ## Session data model (`src/features/yoom-session/types.ts`) -/

/-- `ProjectType = 'new' | 'existing'`. -/
inductive ProjectType where
  | newProject
  | existing
deriving DecidableEq, BEq

/-- `YoomMode = 'full' | 'custom'`. -/
inductive YoomMode where
  | full
  | custom
deriving DecidableEq, BEq

/-- `FeatureStep`: the six workflow steps. -/
inductive FeatureStep where
  | DEVELOP
  | REVIEW
  | TEST
  | REFACTOR
  | DOCUMENT
  | COMMIT
deriving DecidableEq, BEq

/-- `FeatureStatus = 'pending' | 'in_progress' | 'completed'`. -/
inductive FeatureStatus where
  | pending
  | in_progress
  | completed
deriving DecidableEq, BEq

/-- `DiscoveryResult.purpose` union type. -/
inductive Purpose where
  | production
  | portfolio
  | learning
deriving DecidableEq, BEq

/-- `DiscoveryResult`. -/
structure DiscoveryResult where
  purpose : Purpose
  techStack : List Str
  constraints : List Str
  requirements : List Str
deriving DecidableEq

/-- `YoomFeature`: one tracked unit of work. -/
structure YoomFeature where
  name : Str
  description : Str
  status : FeatureStatus
  currentStep : Option FeatureStep
  completedSteps : List FeatureStep
  notes : List Str
  createdAt : Str
  updatedAt : Str
deriving DecidableEq

/-- `YoomSessionConfig`. The `scope` union collapses to a string, as every
    branch of the TS union is a string. -/
structure YoomSessionConfig where
  projectType : ProjectType
  framework : Str
  mode : YoomMode
  agents : List Str
  scope : Str
deriving DecidableEq

/-- `YoomSession`: the root aggregate. `currentFeatureIndex` is a TS
    `number` that takes the sentinel `-1`, hence `Int`. -/
structure YoomSession where
  version : Str
  createdAt : Str
  lastActivityAt : Str
  config : YoomSessionConfig
  discovery : Option DiscoveryResult
  features : List YoomFeature
  currentFeatureIndex : Int
  notes : List Str
deriving DecidableEq

/-- `FEATURE_STEP_ORDER` from `types.ts`. -/
def FEATURE_STEP_ORDER : List FeatureStep :=
  [.DEVELOP, .REVIEW, .TEST, .REFACTOR, .DOCUMENT, .COMMIT]

/-- Roster pair used both by `FRAMEWORK_AGENTS` (types.ts) and by
    `FrameworkConfig.agents` (rules/types.ts): `{default, fullMode}`. -/
structure AgentRoster where
  default : List Str
  fullMode : List Str
deriving DecidableEq

/-- `FRAMEWORK_AGENTS` from `types.ts`: framework name → roster pair. -/
def FRAMEWORK_AGENTS : List (Str × AgentRoster) :=
  [ (str "nextjs",
     { default := [str "yoom-bot", str "frontend-engineer"],
       fullMode := [str "yoom-bot", str "frontend-engineer", str "code-reviewer",
                    str "tester", str "refactorer", str "document-writer",
                    str "git-committer"] }),
    (str "rails",
     { default := [str "yoom-bot", str "oracle"],
       fullMode := [str "yoom-bot", str "oracle", str "code-reviewer",
                    str "tester", str "refactorer", str "document-writer",
                    str "git-committer"] }),
    (str "laravel",
     { default := [str "yoom-bot", str "oracle"],
       fullMode := [str "yoom-bot", str "oracle", str "code-reviewer",
                    str "tester", str "refactorer", str "document-writer",
                    str "git-committer"] }),
    (str "electron",
     { default := [str "yoom-bot", str "frontend-engineer"],
       fullMode := [str "yoom-bot", str "frontend-engineer", str "code-reviewer",
                    str "tester", str "refactorer", str "document-writer",
                    str "git-committer"] }),
    (str "fastapi",
     { default := [str "yoom-bot", str "oracle"],
       fullMode := [str "yoom-bot", str "oracle", str "code-reviewer",
                    str "tester", str "refactorer", str "document-writer",
                    str "git-committer"] }),
    (str "tauri",
     { default := [str "yoom-bot", str "frontend-engineer", str "oracle"],
       fullMode := [str "yoom-bot", str "frontend-engineer", str "oracle",
                    str "code-reviewer", str "tester", str "refactorer",
                    str "document-writer", str "git-committer"] }),
    (str "automation",
     { default := [str "yoom-bot", str "explore"],
       fullMode := [str "yoom-bot", str "explore", str "code-reviewer",
                    str "tester", str "git-committer"] }) ]

/-- `getAgentsForFramework` from `types.ts`: unknown framework falls back to
    the minimal roster (four agents in full mode, `yoom-bot` alone otherwise). -/
def getAgentsForFramework (framework : Str) (mode : YoomMode) : List Str :=
  match FRAMEWORK_AGENTS.lookup framework with
  | none =>
      if mode = YoomMode.full then
        [str "yoom-bot", str "code-reviewer", str "tester", str "git-committer"]
      else [str "yoom-bot"]
  | some config => if mode = YoomMode.full then config.fullMode else config.default

/-- `getNextStep` from `types.ts`: successor in the fixed step order. -/
def getNextStep (currentStep : FeatureStep) : Option FeatureStep :=
  let currentIndex := FEATURE_STEP_ORDER.indexOf currentStep
  if currentIndex = FEATURE_STEP_ORDER.length - 1 then none
  else FEATURE_STEP_ORDER.get? (currentIndex + 1)

/-! ## Session operations (`src/features/yoom-session/` persistence module)

The operations all follow the shape *load → mutate → save*. Loading,
parsing and re-serialising the file is verified separately (see the
markdown/JSON layer below); here the persistent state is modelled as
`Option YoomSession` — `none` when no session file exists (or its
authoritative block does not parse), `some s` when loading yields `s`.
Each operation takes the state and the current timestamp string (the
value of `new Date().toISOString()`) and returns the new state paired
with the operation's return value. -/

/-- `CreateSessionOptions`. -/
structure CreateSessionOptions where
  projectType : ProjectType
  framework : Str
  mode : YoomMode
  agents : Option (List Str) := none
  scope : Option Str := none

/-- The `addFeature` payload of `UpdateSessionOptions`:
    `Omit<YoomFeature, 'createdAt' | 'updatedAt' | 'completedSteps'>`. -/
structure FeatureAdd where
  name : Str
  description : Str
  status : FeatureStatus
  currentStep : Option FeatureStep := none
  notes : List Str := []

/-- The `featureUpdate` payload: `Partial<YoomFeature>`. The outer `Option`
    is property presence; for `currentStep` the inner `Option` is the
    (itself optional) value, since `Object.assign` copies an explicitly
    `undefined` property and thereby clears the field. -/
structure FeatureUpdate where
  name : Option Str := none
  description : Option Str := none
  status : Option FeatureStatus := none
  currentStep : Option (Option FeatureStep) := none
  completedSteps : Option (List FeatureStep) := none
  notes : Option (List Str) := none
  createdAt : Option Str := none
deriving DecidableEq

/-- `UpdateSessionOptions`. -/
structure UpdateSessionOptions where
  addFeature : Option FeatureAdd := none
  updateFeatureIndex : Option Int := none
  featureUpdate : Option FeatureUpdate := none
  setCurrentFeature : Option Int := none
  addNote : Option Str := none
  discovery : Option DiscoveryResult := none

/-- JS array indexing `features[i]` with a TS `number` index: `undefined`
    for negative or out-of-range indices. -/
def getFeat (features : List YoomFeature) (i : Int) : Option YoomFeature :=
  if i < 0 then none else features.get? i.toNat

/-- In-place update `features[i] = f` (no-op outside the range, matching a
    JS write that the operations only perform at in-range indices). -/
def setFeat (features : List YoomFeature) (i : Int) (f : YoomFeature) :
    List YoomFeature :=
  if i < 0 then features else features.set i.toNat f

/-- `Object.assign(feature, featureUpdate, { updatedAt: now })`. -/
def applyFeatureUpdate (f : YoomFeature) (u : FeatureUpdate) (now : Str) :
    YoomFeature :=
  { name := u.name.getD f.name
    description := u.description.getD f.description
    status := u.status.getD f.status
    currentStep := match u.currentStep with
      | some v => v
      | none => f.currentStep
    completedSteps := u.completedSteps.getD f.completedSteps
    notes := u.notes.getD f.notes
    createdAt := u.createdAt.getD f.createdAt
    updatedAt := now }

/-- `createSession`: builds the fresh session and saves it unconditionally
    (the prior state is ignored — there is no existence check). -/
def createSessionSt (prior : Option YoomSession)
    (options : CreateSessionOptions) (now : Str) :
    Option YoomSession × YoomSession :=
  let _ := prior
  let agents := options.agents.getD
    (getAgentsForFramework options.framework options.mode)
  let session : YoomSession :=
    { version := str "1.0.0"
      createdAt := now
      lastActivityAt := now
      config :=
        { projectType := options.projectType
          framework := options.framework
          mode := options.mode
          agents := agents
          scope := options.scope.getD (str "all") }
      discovery := none
      features := []
      currentFeatureIndex := -1
      notes := [] }
  (some session, session)

/-- The feature object built by the `addFeature` branch:
    `{...updates.addFeature, completedSteps: [], createdAt: now,
    updatedAt: now}`. -/
def mkAddedFeature (af : FeatureAdd) (now : Str) : YoomFeature :=
  { name := af.name, description := af.description, status := af.status,
    currentStep := af.currentStep, notes := af.notes,
    completedSteps := [], createdAt := now, updatedAt := now }

/-- `updateSession` branch: add feature (and auto-select it when it is
    the first). -/
def updAddFeature (s : YoomSession) (updates : UpdateSessionOptions)
    (now : Str) : YoomSession :=
  match updates.addFeature with
  | none => s
  | some af =>
    let features' := s.features ++ [mkAddedFeature af now]
    { s with
      features := features'
      currentFeatureIndex :=
        if features'.length = 1 then 0 else s.currentFeatureIndex }

/-- `updateSession` branch: update a feature by index when present. -/
def updFeatureUpdate (s : YoomSession) (updates : UpdateSessionOptions)
    (now : Str) : YoomSession :=
  match updates.updateFeatureIndex, updates.featureUpdate with
  | some i, some fu =>
    match getFeat s.features i with
    | some f =>
      { s with features := setFeat s.features i (applyFeatureUpdate f fu now) }
    | none => s
  | _, _ => s

/-- `updateSession` branch: set the current feature index. -/
def updSetCurrent (s : YoomSession) (updates : UpdateSessionOptions) :
    YoomSession :=
  match updates.setCurrentFeature with
  | some v => { s with currentFeatureIndex := v }
  | none => s

/-- `updateSession` branch: append a timestamped note
    (`if (updates.addNote)`: the empty string is falsy and skipped). -/
def updAddNote (s : YoomSession) (updates : UpdateSessionOptions)
    (now : Str) : YoomSession :=
  match updates.addNote with
  | some n =>
    if n = [] then s
    else { s with notes := s.notes ++ [('[' :: now) ++ (']' :: ' ' :: n)] }
  | none => s

/-- `updateSession` branch: overwrite the discovery results. -/
def updDiscovery (s : YoomSession) (updates : UpdateSessionOptions) :
    YoomSession :=
  match updates.discovery with
  | some d => { s with discovery := some d }
  | none => s

/-- `updateSession`: load; if absent return null with no write; otherwise
    apply the update branches in source order and save. -/
def updateSessionSt (st : Option YoomSession)
    (updates : UpdateSessionOptions) (now : Str) :
    Option YoomSession × Option YoomSession :=
  match st with
  | none => (none, none)
  | some s0 =>
    let s6 :=
      updDiscovery
        (updAddNote
          (updSetCurrent
            (updFeatureUpdate
              (updAddFeature { s0 with lastActivityAt := now } updates now)
              updates now)
            updates)
          updates now)
        updates
    (some s6, some s6)

/-- The value `completeCurrentStep` hands back on success. -/
structure CompleteStepResult where
  session : YoomSession
  nextStep : Option FeatureStep
  featureCompleted : Bool
deriving DecidableEq

/-- `completeCurrentStep`: null when no session, no current feature, or no
    current step (each without writing); otherwise idempotently record the
    step, advance the cursor or complete the feature, and save. -/
def completeCurrentStepSt (st : Option YoomSession) (now : Str) :
    Option YoomSession × Option CompleteStepResult :=
  match st with
  | none => (none, none)
  | some s0 =>
    match getFeat s0.features s0.currentFeatureIndex with
    | none => (some s0, none)
    | some feature =>
      match feature.currentStep with
      | none => (some s0, none)
      | some cur =>
        let completed' :=
          if feature.completedSteps.contains cur then feature.completedSteps
          else feature.completedSteps ++ [cur]
        let currentIndex := FEATURE_STEP_ORDER.indexOf cur
        let nextStep :=
          if currentIndex < FEATURE_STEP_ORDER.length - 1 then
            FEATURE_STEP_ORDER.get? (currentIndex + 1)
          else none
        let feature' := match nextStep with
          | some ns =>
            { feature with completedSteps := completed', updatedAt := now,
                           currentStep := some ns }
          | none =>
            { feature with completedSteps := completed', updatedAt := now,
                           status := .completed, currentStep := none }
        let s1 := { s0 with
          lastActivityAt := now,
          features := setFeat s0.features s0.currentFeatureIndex feature' }
        (some s1, some { session := s1, nextStep := nextStep,
                         featureCompleted := nextStep.isNone })

/-- `startNextFeature`: find the first `pending` feature at an index
    *strictly greater* than `currentFeatureIndex`; if none, return null
    without writing; otherwise make it current, mark it `in_progress` at
    step `DEVELOP`, and save. `List.enum` pairs each feature with its
    index, modelling `findIndex`'s `(f, i)` callback. -/
def startNextFeatureSt (st : Option YoomSession) (now : Str) :
    Option YoomSession × Option YoomSession :=
  match st with
  | none => (none, none)
  | some s0 =>
    match s0.features.enum.find? (fun p =>
        (s0.currentFeatureIndex < (p.1 : Int)) && (p.2.status = FeatureStatus.pending)) with
    | none => (some s0, none)
    | some (nextIndex, feature) =>
      let feature' := { feature with
        status := .in_progress, currentStep := some .DEVELOP, updatedAt := now }
      let s1 := { s0 with
        lastActivityAt := now,
        currentFeatureIndex := (nextIndex : Int),
        features := s0.features.set nextIndex feature' }
      (some s1, some s1)

/-! ## Rules module (`src/rules/`)

`ReviewDeduction`, `FrameworkConfig`, `DetectionResult` from
`rules/types.ts`; the static per-framework configuration objects from
`rules/<framework>.ts`; detection and composition from `rules/index.ts`.
The multi-kilobyte markdown payloads (`rules` on each config, the
`commonRules` text) are opaque prompt text — the spec scopes them out and
no claim inspects them, so the `rules` field is omitted from the
embedding; every field with decision content is carried in full. -/

/-- `ReviewDeduction.category` union. `structure` is a Lean keyword, so
    that alternative is spelled `struct`. -/
inductive DeductionCategory where
  | purity
  | unidirectional
  | declarative
  | debugging
  | struct
  | framework
deriving DecidableEq

/-- `ReviewDeduction`. -/
structure ReviewDeduction where
  code : Str
  description : Str
  points : Int
  category : DeductionCategory
deriving DecidableEq

/-- `FrameworkConfig.testing`. -/
structure TestingConfig where
  framework : Str
  command : Str
  directory : Str
deriving DecidableEq

/-- `FrameworkConfig` (the `rules` markdown payload omitted; see the
    section comment). -/
structure FrameworkConfig where
  name : Str
  displayName : Str
  detection : List Str
  deductions : List ReviewDeduction
  agents : AgentRoster
  testing : Option TestingConfig
deriving DecidableEq

/-- `commonDeductions` from `rules/common.ts`. -/
def commonDeductions : List ReviewDeduction :=
  [
    { code := str "PURE-1", description := str "Side effect in business logic (DB call, API call, file I/O)",
      points := 10, category := .purity },
    { code := str "PURE-2", description := str "Parameter mutation",
      points := 8, category := .purity },
    { code := str "PURE-3", description := str "Hidden state dependency (global variable access)",
      points := 7, category := .purity },
    { code := str "UNI-1", description := str "Props mutation (ZERO TOLERANCE)",
      points := 15, category := .unidirectional },
    { code := str "UNI-2", description := str "Global state bypass (accessing context/store incorrectly)",
      points := 10, category := .unidirectional },
    { code := str "DECL-1", description := str "if/else chain (3+ conditions) instead of object lookup",
      points := 8, category := .declarative },
    { code := str "DECL-2", description := str "Imperative loop instead of array method",
      points := 5, category := .declarative },
    { code := str "DECL-3", description := str "Nested conditions (3+ levels) without guard clauses",
      points := 7, category := .declarative },
    { code := str "DECL-4", description := str "Anonymous boolean logic instead of named predicate",
      points := 5, category := .declarative },
    { code := str "DEBUG-1", description := str "Symptom patch without root cause analysis",
      points := 10, category := .debugging },
    { code := str "DEBUG-2", description := str "Missing error boundary/handling",
      points := 5, category := .debugging },
    { code := str "STRUCT-1", description := str "Function longer than 20 lines",
      points := 3, category := .struct },
    { code := str "STRUCT-2", description := str "Nesting deeper than 2 levels",
      points := 4, category := .struct },
    { code := str "STRUCT-3", description := str "Inconsistent naming convention",
      points := 3, category := .struct }
  ]


/-- Framework deduction catalogs from `rules/<framework>.ts`. -/
def nextjsDeductions : List ReviewDeduction :=
  [
    { code := str "NEXT-1", description := str "Missing \"use client\" directive in interactive component",
      points := 8, category := .framework },
    { code := str "NEXT-2", description := str "Using pages/ directory patterns in App Router project",
      points := 10, category := .framework },
    { code := str "NEXT-3", description := str "Fetching in useEffect without React Query/SWR",
      points := 5, category := .framework },
    { code := str "NEXT-4", description := str "Not using Server Components where possible",
      points := 5, category := .framework },
    { code := str "NEXT-5", description := str "FSD layer violation (wrong import direction)",
      points := 7, category := .framework },
    { code := str "NEXT-6", description := str "Missing Zod validation in API routes",
      points := 5, category := .framework }
  ]

def railsDeductions : List ReviewDeduction :=
  [
    { code := str "RAILS-1", description := str "Business logic in controller (fat controller)",
      points := 10, category := .framework },
    { code := str "RAILS-2", description := str "Business logic in model callbacks",
      points := 8, category := .framework },
    { code := str "RAILS-3", description := str "N+1 query detected (missing includes/preload)",
      points := 7, category := .framework },
    { code := str "RAILS-4", description := str "Direct SQL in controller instead of Query Object",
      points := 5, category := .framework },
    { code := str "RAILS-5", description := str "Missing service object for complex operation",
      points := 6, category := .framework },
    { code := str "RAILS-6", description := str "Missing request specs for API endpoint",
      points := 5, category := .framework }
  ]

def laravelDeductions : List ReviewDeduction :=
  [
    { code := str "LARAVEL-1", description := str "Business logic in controller (fat controller)",
      points := 10, category := .framework },
    { code := str "LARAVEL-2", description := str "Validation in controller instead of Form Request",
      points := 7, category := .framework },
    { code := str "LARAVEL-3", description := str "Direct Eloquent in controller instead of Repository",
      points := 5, category := .framework },
    { code := str "LARAVEL-4", description := str "Missing Action class for complex operation",
      points := 6, category := .framework },
    { code := str "LARAVEL-5", description := str "N+1 query (missing eager loading)",
      points := 7, category := .framework },
    { code := str "LARAVEL-6", description := str "Raw SQL without parameter binding",
      points := 10, category := .framework }
  ]

def electronDeductions : List ReviewDeduction :=
  [
    { code := str "ELECTRON-1", description := str "nodeIntegration enabled (CRITICAL security issue)",
      points := 15, category := .framework },
    { code := str "ELECTRON-2", description := str "contextIsolation disabled",
      points := 15, category := .framework },
    { code := str "ELECTRON-3", description := str "Direct ipcRenderer exposure without contextBridge",
      points := 10, category := .framework },
    { code := str "ELECTRON-4", description := str "Missing path validation in file operations",
      points := 10, category := .framework },
    { code := str "ELECTRON-5", description := str "Using remote module",
      points := 8, category := .framework },
    { code := str "ELECTRON-6", description := str "Missing input validation in IPC handlers",
      points := 7, category := .framework }
  ]

def fastapiDeductions : List ReviewDeduction :=
  [
    { code := str "FASTAPI-1", description := str "Business logic in route handler (fat route)",
      points := 10, category := .framework },
    { code := str "FASTAPI-2", description := str "Direct ORM query in route instead of repository",
      points := 6, category := .framework },
    { code := str "FASTAPI-3", description := str "Missing Pydantic schema for request/response",
      points := 7, category := .framework },
    { code := str "FASTAPI-4", description := str "Sync blocking call in async function",
      points := 8, category := .framework },
    { code := str "FASTAPI-5", description := str "Missing dependency injection",
      points := 5, category := .framework },
    { code := str "FASTAPI-6", description := str "Hardcoded configuration values",
      points := 5, category := .framework }
  ]

def tauriDeductions : List ReviewDeduction :=
  [
    { code := str "TAURI-1", description := str "allowlist.all enabled (security risk)",
      points := 15, category := .framework },
    { code := str "TAURI-2", description := str "Unscoped filesystem access",
      points := 10, category := .framework },
    { code := str "TAURI-3", description := str "Missing path validation in Rust command",
      points := 10, category := .framework },
    { code := str "TAURI-4", description := str "Using panic! instead of Result in command",
      points := 8, category := .framework },
    { code := str "TAURI-5", description := str "Blocking async runtime with sync operations",
      points := 7, category := .framework },
    { code := str "TAURI-6", description := str "Missing type-safe command wrapper in frontend",
      points := 5, category := .framework }
  ]

def automationDeductions : List ReviewDeduction :=
  [
    { code := str "AUTO-1", description := str "Business logic in CLI command handler",
      points := 8, category := .framework },
    { code := str "AUTO-2", description := str "Direct I/O in core logic (not isolated in adapter)",
      points := 7, category := .framework },
    { code := str "AUTO-3", description := str "Unvalidated shell command execution",
      points := 10, category := .framework },
    { code := str "AUTO-4", description := str "process.exit in library code",
      points := 5, category := .framework },
    { code := str "AUTO-5", description := str "Hardcoded paths or configuration",
      points := 5, category := .framework },
    { code := str "AUTO-6", description := str "Missing error handling for shell operations",
      points := 6, category := .framework }
  ]

def nextjsConfig : FrameworkConfig :=
  { name := str "nextjs", displayName := str "Next.js (App Router)",
    detection := [str "next.config.js", str "next.config.mjs", str "next.config.ts", str "app/layout.tsx", str "app/page.tsx"],
    deductions := nextjsDeductions,
    agents := { default := [str "yoom-bot", str "frontend-engineer"],
                fullMode := [str "yoom-bot", str "frontend-engineer", str "code-reviewer", str "tester", str "refactorer", str "document-writer", str "git-committer"] },
    testing := some { framework := str "playwright", command := str "npx playwright test", directory := str "e2e" } }

def railsConfig : FrameworkConfig :=
  { name := str "rails", displayName := str "Ruby on Rails",
    detection := [str "Gemfile", str "config/routes.rb", str "app/controllers/application_controller.rb", str "config/application.rb"],
    deductions := railsDeductions,
    agents := { default := [str "yoom-bot", str "oracle"],
                fullMode := [str "yoom-bot", str "oracle", str "code-reviewer", str "tester", str "refactorer", str "document-writer", str "git-committer"] },
    testing := some { framework := str "rspec", command := str "bundle exec rspec", directory := str "spec" } }

def laravelConfig : FrameworkConfig :=
  { name := str "laravel", displayName := str "Laravel",
    detection := [str "composer.json", str "artisan", str "app/Http/Kernel.php", str "bootstrap/app.php"],
    deductions := laravelDeductions,
    agents := { default := [str "yoom-bot", str "oracle"],
                fullMode := [str "yoom-bot", str "oracle", str "code-reviewer", str "tester", str "refactorer", str "document-writer", str "git-committer"] },
    testing := some { framework := str "pest", command := str "php artisan test", directory := str "tests" } }

def electronConfig : FrameworkConfig :=
  { name := str "electron", displayName := str "Electron",
    detection := [str "electron-builder.json", str "electron-builder.yml", str "electron.vite.config.ts", str "src/main/index.ts", str "src/preload/index.ts"],
    deductions := electronDeductions,
    agents := { default := [str "yoom-bot", str "frontend-engineer"],
                fullMode := [str "yoom-bot", str "frontend-engineer", str "code-reviewer", str "tester", str "refactorer", str "document-writer", str "git-committer"] },
    testing := some { framework := str "playwright", command := str "npx playwright test", directory := str "e2e" } }

def fastapiConfig : FrameworkConfig :=
  { name := str "fastapi", displayName := str "FastAPI",
    detection := [str "requirements.txt", str "pyproject.toml", str "app/main.py", str "main.py"],
    deductions := fastapiDeductions,
    agents := { default := [str "yoom-bot", str "oracle"],
                fullMode := [str "yoom-bot", str "oracle", str "code-reviewer", str "tester", str "refactorer", str "document-writer", str "git-committer"] },
    testing := some { framework := str "pytest", command := str "pytest", directory := str "tests" } }

def tauriConfig : FrameworkConfig :=
  { name := str "tauri", displayName := str "Tauri",
    detection := [str "src-tauri/tauri.conf.json", str "src-tauri/Cargo.toml", str "tauri.conf.json"],
    deductions := tauriDeductions,
    agents := { default := [str "yoom-bot", str "frontend-engineer", str "oracle"],
                fullMode := [str "yoom-bot", str "frontend-engineer", str "oracle", str "code-reviewer", str "tester", str "refactorer", str "document-writer", str "git-committer"] },
    testing := some { framework := str "playwright", command := str "npx playwright test", directory := str "e2e" } }

def automationConfig : FrameworkConfig :=
  { name := str "automation", displayName := str "Automation/CLI",
    detection := [str "bin/", str "cli.ts", str "cli.js", str "scripts/"],
    deductions := automationDeductions,
    agents := { default := [str "yoom-bot", str "explore"],
                fullMode := [str "yoom-bot", str "explore", str "code-reviewer", str "tester", str "git-committer"] },
    testing := some { framework := str "vitest", command := str "npm test", directory := str "tests" } }


/-- `FRAMEWORK_CONFIGS` from `rules/index.ts`: name → config. -/
def FRAMEWORK_CONFIGS : List (Str × FrameworkConfig) :=
  [ (str "nextjs", nextjsConfig),
    (str "rails", railsConfig),
    (str "laravel", laravelConfig),
    (str "electron", electronConfig),
    (str "fastapi", fastapiConfig),
    (str "tauri", tauriConfig),
    (str "automation", automationConfig) ]

/-- `DETECTION_ORDER` from `rules/index.ts` (most specific first). -/
def DETECTION_ORDER : List Str :=
  [ str "tauri", str "electron", str "nextjs", str "laravel",
    str "rails", str "fastapi", str "automation" ]

/-! ### Project-root model for detection

The detector helpers observe exactly four things about a project root:
which relative paths exist (`existsSync`), the dependency keys of a
parsed `package.json`, the require keys of a parsed `composer.json`, and
the raw text of `requirements.txt`.  Each manifest is `none` when the
file is missing *or* fails to parse — in both cases the corresponding
helper returns `false`, which is exactly the code's behaviour (missing
file check, and `try/catch` around `JSON.parse` returning `false`). -/

/-- Parsed `package.json` as the detector sees it: dependency key sets. -/
structure PackageManifest where
  dependencies : List Str
  devDependencies : List Str

/-- Parsed `composer.json` as the detector sees it. -/
structure ComposerManifest where
  require : List Str
  requireDev : List Str

/-- A project root, at the granularity the detector predicates query. -/
structure ProjectRoot where
  files : List Str
  packageJson : Option PackageManifest := none
  composerJson : Option ComposerManifest := none
  requirementsTxt : Option Str := none

/-- `fileExists(projectRoot, relativePath)`. -/
def fileExists (root : ProjectRoot) (relativePath : Str) : Bool :=
  root.files.contains relativePath

/-- `hasDependency`: key present in `dependencies` or `devDependencies`. -/
def hasDependency (root : ProjectRoot) (depName : Str) : Bool :=
  match root.packageJson with
  | none => false
  | some pkg => pkg.dependencies.contains depName || pkg.devDependencies.contains depName

/-- `hasComposerPackage`: key present in `require` or `require-dev`. -/
def hasComposerPackage (root : ProjectRoot) (packageName : Str) : Bool :=
  match root.composerJson with
  | none => false
  | some composer => composer.require.contains packageName || composer.requireDev.contains packageName

/-- Case-fold to lower case, character-wise (`String.toLowerCase`). -/
def lowerStr (s : Str) : Str := s.map Char.toLower

/-- Is `needle` a contiguous substring of `hay` (`String.includes`)? -/
def containsSub (needle hay : Str) : Bool :=
  hay.tails.any (fun t => needle.isPrefixOf t)

/-- `hasPythonPackage`: case-insensitive substring search in
    `requirements.txt`. -/
def hasPythonPackage (root : ProjectRoot) (packageName : Str) : Bool :=
  match root.requirementsTxt with
  | none => false
  | some content => containsSub (lowerStr packageName) (lowerStr content)

/-- `FRAMEWORK_DETECTORS` from `rules/index.ts`: name → predicate. -/
def FRAMEWORK_DETECTORS (name : Str) : Option (ProjectRoot → Bool) :=
  if name = str "nextjs" then some (fun root =>
    fileExists root (str "next.config.js") ||
    fileExists root (str "next.config.mjs") ||
    fileExists root (str "next.config.ts") ||
    (fileExists root (str "app/layout.tsx") && hasDependency root (str "next")))
  else if name = str "electron" then some (fun root =>
    fileExists root (str "electron-builder.json") ||
    fileExists root (str "electron-builder.yml") ||
    fileExists root (str "electron.vite.config.ts") ||
    hasDependency root (str "electron"))
  else if name = str "tauri" then some (fun root =>
    fileExists root (str "src-tauri/tauri.conf.json") ||
    fileExists root (str "src-tauri/Cargo.toml"))
  else if name = str "rails" then some (fun root =>
    fileExists root (str "Gemfile") &&
    fileExists root (str "config/routes.rb") &&
    fileExists root (str "app/controllers/application_controller.rb"))
  else if name = str "laravel" then some (fun root =>
    fileExists root (str "artisan") &&
    fileExists root (str "composer.json") &&
    hasComposerPackage root (str "laravel/framework"))
  else if name = str "fastapi" then some (fun root =>
    (fileExists root (str "requirements.txt") || fileExists root (str "pyproject.toml")) &&
    (hasPythonPackage root (str "fastapi") || fileExists root (str "app/main.py")))
  else if name = str "automation" then some (fun root =>
    fileExists root (str "bin/") ||
    fileExists root (str "cli.ts") ||
    fileExists root (str "cli.js") ||
    fileExists root (str "scripts/"))
  else none

/-- `DetectionResult`. Confidence is one of `0`, `0.8`, `1.0`; the TS
    float is represented exactly in `ℚ`. -/
structure DetectionResult where
  framework : Option FrameworkConfig
  confidence : ℚ
  matchedFiles : List Str
deriving DecidableEq

/-- The loop body of `detectFramework` over the remaining priority list:
    the first name whose detector fires wins, its matched detection
    patterns are collected in declaration order, and confidence is `1.0`
    with two or more matches, else `0.8`. -/
def detectFrameworkGo (root : ProjectRoot) : List Str → DetectionResult
  | [] => { framework := none, confidence := 0, matchedFiles := [] }
  | frameworkName :: rest =>
    match FRAMEWORK_DETECTORS frameworkName with
    | none => detectFrameworkGo root rest
    | some detector =>
      if detector root then
        match (FRAMEWORK_CONFIGS.lookup frameworkName) with
        | some config =>
          let matchedFiles := config.detection.filter (fun pattern => fileExists root pattern)
          { framework := some config,
            confidence := if 2 ≤ matchedFiles.length then 1.0 else 0.8,
            matchedFiles := matchedFiles }
        | none => detectFrameworkGo root rest
      else detectFrameworkGo root rest

/-- `detectFramework(projectRoot)` from `rules/index.ts`. -/
def detectFramework (root : ProjectRoot) : DetectionResult :=
  detectFrameworkGo root DETECTION_ORDER

/-- `getFrameworkConfig(name)`. -/
def getFrameworkConfig (name : Str) : Option FrameworkConfig :=
  FRAMEWORK_CONFIGS.lookup name

/-- `CombinedRules` (the two opaque text fields omitted, like
    `FrameworkConfig.rules`; see the section comment). -/
structure CombinedRules where
  deductions : List ReviewDeduction
  agents : List Str
deriving DecidableEq

/-- `combineRules(framework, agents, fullMode)` from `rules/index.ts`.
    Note the no-framework branch: `agents ?? [the fixed four]`,
    independent of `fullMode`. -/
def combineRules (framework : Option FrameworkConfig)
    (agents : Option (List Str) := none) (fullMode : Bool := true) :
    CombinedRules :=
  match framework with
  | some fw =>
    { deductions := commonDeductions ++ fw.deductions,
      agents := agents.getD
        (if fullMode then fw.agents.fullMode else fw.agents.default) }
  | none =>
    { deductions := commonDeductions,
      agents := agents.getD
        [str "yoom-bot", str "code-reviewer", str "tester", str "git-committer"] }

/-- `getTotalDeductionPoints(framework)`. -/
def getTotalDeductionPoints (framework : Option FrameworkConfig) : Int :=
  let total := (commonDeductions.map (fun d => d.points)).sum
  match framework with
  | some fw => total + (fw.deductions.map (fun d => d.points)).sum
  | none => total


/-! ## Serialisation layer: markdown + embedded JSON

`formatSessionMarkdown` renders the human-readable document and appends
the authoritative fenced `JSON.stringify(session, null, 2)` block;
`parseSessionMarkdown` regex-extracts the *first* fenced json block and
`JSON.parse`s it. The JSON value space is modelled by `Json`; the pretty
renderer below reproduces `JSON.stringify(·, null, 2)` (2-space indent,
key/value separator `": "`, strings escaped as V8 does: the five short
escapes plus `\u00XX` for remaining control characters). Object key
order is fixed to the declaration/creation order of the TS objects.
All characters are plain `Char`s; the two curly braces are spelled via
`Char.ofNat` throughout. -/

/-- `'{'`. -/
def lcurly : Char := Char.ofNat 123

/-- `'}'`. -/
def rcurly : Char := Char.ofNat 125

/-- Decimal digit character (`0 ≤ d ≤ 9`). -/
def digitChar (d : Nat) : Char := Char.ofNat (48 + d)

/-- Lower-case hex digit character (`0 ≤ d ≤ 15`). -/
def hexChar (d : Nat) : Char :=
  if d < 10 then Char.ofNat (48 + d) else Char.ofNat (87 + d)

/-- Decimal digits of `n`, most significant first. The fuel argument is
    structural slack; `n + 1` always suffices. -/
def natCharsGo : Nat → Nat → Str
  | 0, _ => []
  | fuel + 1, n =>
    if n < 10 then [digitChar n]
    else natCharsGo fuel (n / 10) ++ [digitChar (n % 10)]

/-- Decimal rendering of a natural number. -/
def natChars (n : Nat) : Str := natCharsGo (n + 1) n

/-- Decimal rendering of an integer (`JSON.stringify` of a TS number
    that holds an integer). -/
def intChars (i : Int) : Str :=
  if i < 0 then '-' :: natChars i.natAbs else natChars i.toNat

/-- One character, JSON-escaped as `JSON.stringify` escapes it. -/
def escapeChar (c : Char) : Str :=
  if c = '"' then ['\\', '"']
  else if c = '\\' then ['\\', '\\']
  else if c = '\n' then ['\\', 'n']
  else if c = '\r' then ['\\', 'r']
  else if c = '\t' then ['\\', 't']
  else if c = Char.ofNat 8 then ['\\', 'b']
  else if c = Char.ofNat 12 then ['\\', 'f']
  else if c.toNat < 32 then
    ['\\', 'u', '0', '0', hexChar (c.toNat / 16), hexChar (c.toNat % 16)]
  else [c]

/-- JSON-escape a whole string body. -/
def escStr (s : Str) : Str := s.flatMap escapeChar

/-- A quoted, escaped JSON string literal. -/
def quoteStr (s : Str) : Str := '"' :: (escStr s ++ ['"'])

/-- The JSON value space (`JSON.parse` results / `JSON.stringify`
    inputs), integers only: the session serialises no other numbers. -/
inductive Json where
  | jnull : Json
  | jbool : Bool → Json
  | jnum : Int → Json
  | jstr : Str → Json
  | jarr : List Json → Json
  | jobj : List (Str × Json) → Json

/-- `n` spaces. -/
def indentStr (n : Nat) : Str := List.replicate n ' '

mutual
/-- `JSON.stringify(v, null, 2)` at indentation level `ind`. -/
def renderJson (ind : Nat) : Json → Str
  | .jnull => str "null"
  | .jbool true => str "true"
  | .jbool false => str "false"
  | .jnum i => intChars i
  | .jstr s => quoteStr s
  | .jarr [] => str "[]"
  | .jarr (e :: es) =>
    '[' :: '\n' :: (renderItems (ind + 2) (e :: es) ++
      '\n' :: (indentStr ind ++ [']']))
  | .jobj [] => [lcurly, rcurly]
  | .jobj (f :: fs) =>
    lcurly :: '\n' :: (renderFields (ind + 2) (f :: fs) ++
      '\n' :: (indentStr ind ++ [rcurly]))
/-- Array items, each indented, separated by `",\n"`. -/
def renderItems (ind : Nat) : List Json → Str
  | [] => []
  | e :: es => (indentStr ind ++ renderJson ind e) ++ renderItemsSep ind es
def renderItemsSep (ind : Nat) : List Json → Str
  | [] => []
  | e :: es =>
    ',' :: '\n' :: ((indentStr ind ++ renderJson ind e) ++ renderItemsSep ind es)
/-- Object members `"key": value`, each indented, separated by `",\n"`. -/
def renderFields (ind : Nat) : List (Str × Json) → Str
  | [] => []
  | (k, v) :: fs =>
    (indentStr ind ++ quoteStr k ++ ':' :: ' ' :: renderJson ind v) ++
      renderFieldsSep ind fs
def renderFieldsSep (ind : Nat) : List (Str × Json) → Str
  | [] => []
  | (k, v) :: fs =>
    ',' :: '\n' :: ((indentStr ind ++ quoteStr k ++ ':' :: ' ' :: renderJson ind v) ++
      renderFieldsSep ind fs)
end

/-! ### Session → JSON -/

/-- The serialised form of each enum, exactly the TS string unions. -/
def projectTypeStr : ProjectType → Str
  | .newProject => str "new"
  | .existing => str "existing"

def modeStr : YoomMode → Str
  | .full => str "full"
  | .custom => str "custom"

def statusStr : FeatureStatus → Str
  | .pending => str "pending"
  | .in_progress => str "in_progress"
  | .completed => str "completed"

def stepStr : FeatureStep → Str
  | .DEVELOP => str "DEVELOP"
  | .REVIEW => str "REVIEW"
  | .TEST => str "TEST"
  | .REFACTOR => str "REFACTOR"
  | .DOCUMENT => str "DOCUMENT"
  | .COMMIT => str "COMMIT"

def purposeStr : Purpose → Str
  | .production => str "production"
  | .portfolio => str "portfolio"
  | .learning => str "learning"

/-- A feature as `JSON.stringify` sees it. Key order is the creation
    order of the literal `{...addFeature, completedSteps, createdAt,
    updatedAt}`; a `currentStep` holding `undefined` (a completed
    feature) is omitted, as `JSON.stringify` drops such properties. -/
def featureToJson (f : YoomFeature) : Json :=
  .jobj ([(str "name", .jstr f.name),
          (str "description", .jstr f.description),
          (str "status", .jstr (statusStr f.status))] ++
         (match f.currentStep with
          | some c => [(str "currentStep", .jstr (stepStr c))]
          | none => []) ++
         [(str "notes", .jarr (f.notes.map .jstr)),
          (str "completedSteps", .jarr (f.completedSteps.map (fun s => .jstr (stepStr s)))),
          (str "createdAt", .jstr f.createdAt),
          (str "updatedAt", .jstr f.updatedAt)])

def discoveryToJson (d : DiscoveryResult) : Json :=
  .jobj [(str "purpose", .jstr (purposeStr d.purpose)),
         (str "techStack", .jarr (d.techStack.map .jstr)),
         (str "constraints", .jarr (d.constraints.map .jstr)),
         (str "requirements", .jarr (d.requirements.map .jstr))]

/-- The session as `JSON.stringify` sees it: creation order of the
    `createSession` literal, with `discovery` (assigned only later by
    `updateSession`) last when present, omitted when absent. -/
def sessionToJson (s : YoomSession) : Json :=
  .jobj ([(str "version", .jstr s.version),
          (str "createdAt", .jstr s.createdAt),
          (str "lastActivityAt", .jstr s.lastActivityAt),
          (str "config", .jobj
            [(str "projectType", .jstr (projectTypeStr s.config.projectType)),
             (str "framework", .jstr s.config.framework),
             (str "mode", .jstr (modeStr s.config.mode)),
             (str "agents", .jarr (s.config.agents.map .jstr)),
             (str "scope", .jstr s.config.scope)]),
          (str "features", .jarr (s.features.map featureToJson)),
          (str "currentFeatureIndex", .jnum s.currentFeatureIndex),
          (str "notes", .jarr (s.notes.map .jstr))] ++
         (match s.discovery with
          | some d => [(str "discovery", discoveryToJson d)]
          | none => []))

/-- The serialised authoritative block: `JSON.stringify(session, null, 2)`. -/
def sessionJsonStr (s : YoomSession) : Str := renderJson 0 (sessionToJson s)

/-! ### JSON → session

`parseSessionMarkdown` casts the parsed JSON with `data as YoomSession`
and callers then use the fields at their declared types. The typed model
makes that shape requirement explicit: reading returns `none` exactly
when a field the code's later accesses rely on is missing or has the
wrong shape. Lookup takes the first binding of a key; serialised
sessions have no duplicate keys. -/

def jStr? : Json → Option Str
  | .jstr s => some s
  | _ => none

def jInt? : Json → Option Int
  | .jnum i => some i
  | _ => none

def jArr? : Json → Option (List Json)
  | .jarr es => some es
  | _ => none

def jObj? : Json → Option (List (Str × Json))
  | .jobj fs => some fs
  | _ => none

def jGet (fields : List (Str × Json)) (key : Str) : Option Json :=
  fields.lookup key

def projectTypeOfStr (s : Str) : Option ProjectType :=
  if s = str "new" then some .newProject
  else if s = str "existing" then some .existing
  else none

def modeOfStr (s : Str) : Option YoomMode :=
  if s = str "full" then some .full
  else if s = str "custom" then some .custom
  else none

def statusOfStr (s : Str) : Option FeatureStatus :=
  if s = str "pending" then some .pending
  else if s = str "in_progress" then some .in_progress
  else if s = str "completed" then some .completed
  else none

def stepOfStr (s : Str) : Option FeatureStep :=
  if s = str "DEVELOP" then some .DEVELOP
  else if s = str "REVIEW" then some .REVIEW
  else if s = str "TEST" then some .TEST
  else if s = str "REFACTOR" then some .REFACTOR
  else if s = str "DOCUMENT" then some .DOCUMENT
  else if s = str "COMMIT" then some .COMMIT
  else none

def purposeOfStr (s : Str) : Option Purpose :=
  if s = str "production" then some .production
  else if s = str "portfolio" then some .portfolio
  else if s = str "learning" then some .learning
  else none

def featureFromJson (j : Json) : Option YoomFeature := do
  let fs ← jObj? j
  let name ← jGet fs (str "name") >>= jStr?
  let description ← jGet fs (str "description") >>= jStr?
  let status ← jGet fs (str "status") >>= jStr? >>= statusOfStr
  let currentStep ← match jGet fs (str "currentStep") with
    | none => pure none
    | some v => do
        let s ← jStr? v
        let st ← stepOfStr s
        pure (some st)
  let notes ← jGet fs (str "notes") >>= jArr? >>= (·.mapM jStr?)
  let completedSteps ← jGet fs (str "completedSteps") >>= jArr? >>=
    (·.mapM (fun v => jStr? v >>= stepOfStr))
  let createdAt ← jGet fs (str "createdAt") >>= jStr?
  let updatedAt ← jGet fs (str "updatedAt") >>= jStr?
  pure { name, description, status, currentStep, completedSteps, notes,
         createdAt, updatedAt }

def discoveryFromJson (j : Json) : Option DiscoveryResult := do
  let fs ← jObj? j
  let purpose ← jGet fs (str "purpose") >>= jStr? >>= purposeOfStr
  let techStack ← jGet fs (str "techStack") >>= jArr? >>= (·.mapM jStr?)
  let constraints ← jGet fs (str "constraints") >>= jArr? >>= (·.mapM jStr?)
  let requirements ← jGet fs (str "requirements") >>= jArr? >>= (·.mapM jStr?)
  pure { purpose, techStack, constraints, requirements }

def configFromJson (j : Json) : Option YoomSessionConfig := do
  let fs ← jObj? j
  let projectType ← jGet fs (str "projectType") >>= jStr? >>= projectTypeOfStr
  let framework ← jGet fs (str "framework") >>= jStr?
  let mode ← jGet fs (str "mode") >>= jStr? >>= modeOfStr
  let agents ← jGet fs (str "agents") >>= jArr? >>= (·.mapM jStr?)
  let scope ← jGet fs (str "scope") >>= jStr?
  pure { projectType, framework, mode, agents, scope }

def sessionFromJson (j : Json) : Option YoomSession := do
  let fs ← jObj? j
  let version ← jGet fs (str "version") >>= jStr?
  let createdAt ← jGet fs (str "createdAt") >>= jStr?
  let lastActivityAt ← jGet fs (str "lastActivityAt") >>= jStr?
  let config ← jGet fs (str "config") >>= configFromJson
  let features ← jGet fs (str "features") >>= jArr? >>= (·.mapM featureFromJson)
  let currentFeatureIndex ← jGet fs (str "currentFeatureIndex") >>= jInt?
  let notes ← jGet fs (str "notes") >>= jArr? >>= (·.mapM jStr?)
  let discovery ← match jGet fs (str "discovery") with
    | none => pure none
    | some v => (discoveryFromJson v).map some
  pure { version, createdAt, lastActivityAt, config, discovery, features,
         currentFeatureIndex, notes }

/-! ### The markdown document (`formatSessionMarkdown`) -/

/-- `Array.join(sep)`: elements joined with a separator. -/
def joinSep (sep : Str) : List Str → Str
  | [] => []
  | [x] => x
  | x :: y :: rest => x ++ sep ++ joinSep sep (y :: rest)

/-- The line array is built exactly as the source pushes lines; the
    builders below partition those pushes. Joined with `'\n'` at the end. -/
def headerLines (s : YoomSession) : List Str :=
  [str "# Yoom Session", [],
   str "> Created: " ++ s.createdAt,
   str "> Last Activity: " ++ s.lastActivityAt,
   []]

def configLines (s : YoomSession) : List Str :=
  [str "## Configuration", [],
   str "- **Project Type**: " ++ projectTypeStr s.config.projectType,
   str "- **Framework**: " ++ s.config.framework,
   str "- **Mode**: " ++ modeStr s.config.mode,
   str "- **Scope**: " ++ s.config.scope,
   str "- **Agents**: " ++ joinSep (str ", ") s.config.agents,
   []]

def discoveryLines (s : YoomSession) : List Str :=
  match s.discovery with
  | none => []
  | some d =>
    [str "## Discovery Results", [],
     str "- **Purpose**: " ++ purposeStr d.purpose,
     str "- **Tech Stack**: " ++ joinSep (str ", ") d.techStack] ++
    (if 0 < d.constraints.length then
      [str "- **Constraints**: " ++ joinSep (str ", ") d.constraints]
     else []) ++
    (if 0 < d.requirements.length then
      str "- **Requirements**:" :: d.requirements.map (fun req => str "  - " ++ req)
     else []) ++
    [[]]

/-- Lines for one feature (the body of the `forEach`). -/
def featureLines (currentFeatureIndex : Int) (index : Nat)
    (feature : YoomFeature) : List Str :=
  let isCurrent := (index : Int) = currentFeatureIndex
  let statusIcon :=
    if feature.status = .completed then str "✅"
    else if feature.status = .in_progress then str "🔄"
    else str "⏳"
  let currentMarker := if isCurrent then str " 👈 CURRENT" else []
  [str "### " ++ natChars (index + 1) ++ str ". " ++ feature.name ++ currentMarker,
   [],
   statusIcon ++ str " **Status**: " ++ statusStr feature.status] ++
  (match feature.currentStep with
   | some c => [str "📍 **Current Step**: " ++ stepStr c]
   | none => []) ++
  (if feature.description = [] then [] else [str "📝 " ++ feature.description]) ++
  [[]] ++
  (if 0 < feature.completedSteps.length || feature.currentStep.isSome then
    str "**Progress**:" ::
    FEATURE_STEP_ORDER.map (fun step =>
      let icon :=
        if feature.completedSteps.contains step then str "✅"
        else if feature.currentStep = some step then str "🔄"
        else str "⬜"
      str "- " ++ icon ++ str " " ++ stepStr step) ++
    [[]]
   else []) ++
  (if 0 < feature.notes.length then
    str "**Notes**:" :: feature.notes.map (fun note => str "- " ++ note) ++ [[]]
   else [])

def featuresLines (s : YoomSession) : List Str :=
  [str "## Features", []] ++
  (if s.features.length = 0 then [str "_No features defined yet._"]
   else (s.features.enum.map
      (fun p => featureLines s.currentFeatureIndex p.1 p.2)).flatten)

def sessionNotesLines (s : YoomSession) : List Str :=
  if 0 < s.notes.length then
    [str "## Session Notes", []] ++
    s.notes.map (fun note => str "- " ++ note) ++ [[]]
  else []

/-- The fixed lines the source pushes between the session notes and the
    fenced block: separator, blank, do-not-edit comment. -/
def preFenceLines : List Str :=
  [str "---", [], str "<!-- Session Data (DO NOT EDIT) -->"]

/-- `formatSessionMarkdown(session)`: the full document, lines joined
    with `'\n'`; the tail is the authoritative fenced JSON block. -/
def formatSessionMarkdown (session : YoomSession) : Str :=
  joinSep ['\n']
    (headerLines session ++ configLines session ++ discoveryLines session ++
     featuresLines session ++ sessionNotesLines session ++ preFenceLines ++
     [str "```json", sessionJsonStr session, str "```"])


/-! ### Fence extraction (`parseSessionMarkdown`'s regex)

The source matches `/```json\n([\s\S]*?)\n```/`: the leftmost position
where the whole pattern matches, with the lazy group taking the shortest
capture — equivalently, the first occurrence of `"```json\n"`, captured
up to the first `"\n```"` after it (any closing fence later in the text
closes an earlier opening fence too, so searching from the first opening
is exactly the regex's leftmost-match rule). -/

/-- Index of the first occurrence of `pat` in `s` (prefix positions). -/
def findSub (pat : Str) : Str → Option Nat
  | [] => if pat.isPrefixOf ([] : Str) then some 0 else none
  | c :: rest =>
    if pat.isPrefixOf (c :: rest) then some 0
    else (findSub pat rest).map (· + 1)

def fenceOpen : Str := str "```json\n"

def fenceClose : Str := str "\n```"

/-- The capture of the session-file regex, when it matches. -/
def extractJsonBlock (content : Str) : Option Str :=
  match findSub fenceOpen content with
  | none => none
  | some i =>
    let after := content.drop (i + fenceOpen.length)
    match findSub fenceClose after with
    | none => none
    | some j => some (after.take j)

/-! ### `JSON.parse` (fuel-structural recursive descent)

Whitespace-tolerant, full string escapes, integer numbers (the session
format serialises no other numbers), arrays and objects. The fuel is
generous (`2·|input| + 2` at the top level) and only finitely bounds the
mutual recursion; the round-trip theorem shows it never runs out on
rendered output. -/

def isWsChar (c : Char) : Bool :=
  c = ' ' || c = '\n' || c = '\t' || c = '\r'

def dropWs : Str → Str
  | [] => []
  | c :: rest => if isWsChar c then dropWs rest else c :: rest

def isDigitChar (c : Char) : Bool := '0' ≤ c && c ≤ '9'

/-- Split a leading digit run off the input. -/
def takeDigits : Str → Str × Str
  | [] => ([], [])
  | c :: rest =>
    if isDigitChar c then
      let (ds, r) := takeDigits rest
      (c :: ds, r)
    else ([], c :: rest)

/-- The value of a digit run. -/
def digitsVal (ds : Str) : Nat :=
  ds.foldl (fun acc c => acc * 10 + (c.toNat - 48)) 0

/-- Read a JSON integer (optional minus sign, then a nonempty digit run). -/
def readNumber (s : Str) : Option (Int × Str) :=
  match s with
  | [] => none
  | c :: rest =>
    if c = '-' then
      let p := takeDigits rest
      if p.1 = [] then none else some (-(digitsVal p.1 : Int), p.2)
    else
      let p := takeDigits (c :: rest)
      if p.1 = [] then none else some ((digitsVal p.1 : Int), p.2)

/-- JSON single-character escapes. -/
def unescapeChar (e : Char) : Option Char :=
  if e = '"' then some '"'
  else if e = '\\' then some '\\'
  else if e = '/' then some '/'
  else if e = 'n' then some '\n'
  else if e = 't' then some '\t'
  else if e = 'r' then some '\r'
  else if e = 'b' then some (Char.ofNat 8)
  else if e = 'f' then some (Char.ofNat 12)
  else none

def hexVal (c : Char) : Option Nat :=
  if '0' ≤ c && c ≤ '9' then some (c.toNat - 48)
  else if 'a' ≤ c && c ≤ 'f' then some (c.toNat - 87)
  else if 'A' ≤ c && c ≤ 'F' then some (c.toNat - 55)
  else none

/-- Read a string body after the opening quote, undoing escapes. -/
def readStringRest : Str → Option (Str × Str)
  | [] => none
  | '"' :: rest => some ([], rest)
  | '\\' :: 'u' :: h1 :: h2 :: h3 :: h4 :: rest =>
    (match hexVal h1, hexVal h2, hexVal h3, hexVal h4 with
     | some a, some b, some c, some d =>
       (readStringRest rest).map
         (fun p => (Char.ofNat (((a * 16 + b) * 16 + c) * 16 + d) :: p.1, p.2))
     | _, _, _, _ => none)
  | '\\' :: e :: rest =>
    (match unescapeChar e with
     | some c => (readStringRest rest).map (fun p => (c :: p.1, p.2))
     | none => none)
  | c :: rest => (readStringRest rest).map (fun p => (c :: p.1, p.2))

mutual
/-- Parse one JSON value after skipping whitespace. -/
def parseJsonValue : Nat → Str → Option (Json × Str)
  | 0, _ => none
  | fuel + 1, s =>
    match dropWs s with
    | 'n' :: 'u' :: 'l' :: 'l' :: r => some (.jnull, r)
    | 't' :: 'r' :: 'u' :: 'e' :: r => some (.jbool true, r)
    | 'f' :: 'a' :: 'l' :: 's' :: 'e' :: r => some (.jbool false, r)
    | '"' :: r => (readStringRest r).map (fun p => (.jstr p.1, p.2))
    | '[' :: r =>
      (match dropWs r with
       | ']' :: r2 => some (.jarr [], r2)
       | r2 => (parseJsonItems fuel r2).map (fun p => (.jarr p.1, p.2)))
    | c :: r =>
      if c = lcurly then
        match dropWs r with
        | c2 :: r2 =>
          if c2 = rcurly then some (.jobj [], r2)
          else (parseJsonFields fuel (c2 :: r2)).map (fun p => (.jobj p.1, p.2))
        | [] => none
      else if c = '-' || isDigitChar c then
        (readNumber (c :: r)).map (fun p => (.jnum p.1, p.2))
      else none
    | [] => none
/-- One or more comma-separated array items up to the closing bracket. -/
def parseJsonItems : Nat → Str → Option (List Json × Str)
  | 0, _ => none
  | fuel + 1, s =>
    match parseJsonValue fuel s with
    | none => none
    | some (v, r) =>
      match dropWs r with
      | ',' :: r2 => (parseJsonItems fuel r2).map (fun p => (v :: p.1, p.2))
      | ']' :: r2 => some ([v], r2)
      | _ => none
/-- One or more comma-separated members up to the closing brace. -/
def parseJsonFields : Nat → Str → Option (List (Str × Json) × Str)
  | 0, _ => none
  | fuel + 1, s =>
    match dropWs s with
    | '"' :: r =>
      (match readStringRest r with
       | none => none
       | some (k, r1) =>
         match dropWs r1 with
         | ':' :: r2 =>
           (match parseJsonValue fuel r2 with
            | none => none
            | some (v, r3) =>
              match dropWs r3 with
              | ',' :: r4 => (parseJsonFields fuel r4).map (fun p => ((k, v) :: p.1, p.2))
              | c4 :: r4 =>
                if c4 = rcurly then some ([(k, v)], r4) else none
              | [] => none)
         | _ => none)
    | _ => none
end

/-- `JSON.parse`: one value, then only whitespace may remain. -/
def jsonParse (s : Str) : Option Json :=
  match parseJsonValue (2 * s.length + 2) s with
  | some (j, r) => if dropWs r = [] then some j else none
  | none => none

/-- `parseSessionMarkdown(content)` up to the untyped cast: the parsed
    JSON of the first fenced json block, if both steps succeed. -/
def parseSessionMarkdown (content : Str) : Option Json :=
  (extractJsonBlock content).bind jsonParse

/-- `parseSessionMarkdown` composed with the typed reading of the cast
    result (`data as YoomSession`, then field use at the declared types). -/
def loadSessionContent (content : Str) : Option YoomSession :=
  (parseSessionMarkdown content).bind sessionFromJson

/-- `saveSession`'s file content for a session. -/
def saveSessionContent (session : YoomSession) : Str :=
  formatSessionMarkdown session

/-! ### `loadSession` and the I/O boundary

`loadSession` checks existence, then wraps `readFileSync` + parse in
`try { ... } catch { return null }`. The state of the session file is
one of: absent, readable with some content, or unreadable (an I/O error
such as a permission failure, carried as a value). `Except` is the
model of raising: a propagated exception would be `.error`. -/

/-- An I/O error value (e.g. `EACCES`), opaque. -/
structure IOError where
  message : Str
deriving DecidableEq

/-- The session file as the operation can encounter it. -/
inductive FileState where
  | absent : FileState
  | readable : Str → FileState
  | unreadable : IOError → FileState

/-- `loadSession`: absent → `null`; readable → parse (parse failure is
    `null`); unreadable → the `catch` swallows the error and returns
    `null`. No branch propagates an exception. -/
def loadSessionFs (file : FileState) : Except IOError (Option YoomSession) :=
  match file with
  | .absent => .ok none
  | .readable content => .ok (loadSessionContent content)
  | .unreadable _ => .ok none


/-! ## Shared concrete fixtures -/

/-- A minimal `createSession` options value. -/
def sampleOptions : CreateSessionOptions :=
  { projectType := .newProject, framework := str "nextjs", mode := .full }

/-- A minimal well-formed session used as a base for concrete runs. -/
def baseSession : YoomSession :=
  { version := str "1", createdAt := str "c", lastActivityAt := str "l",
    config := { projectType := .newProject, framework := str "x",
                mode := .full, agents := [str "a"], scope := str "all" },
    discovery := none, features := [], currentFeatureIndex := -1, notes := [] }

/-- A session whose single feature is completed (nothing left to start). -/
def allDoneSession : YoomSession :=
  { baseSession with
    features := [{ name := str "A", description := [], status := .completed,
                   currentStep := none, completedSteps := FEATURE_STEP_ORDER,
                   notes := [], createdAt := str "c", updatedAt := str "u" }],
    currentFeatureIndex := 0 }

/-! ## C10 — `createSession` is unconditional -/

/-- **C10.** `createSession` never fails and never checks for an existing
    session: whatever the prior state, it writes the freshly built session
    (empty features, `currentFeatureIndex = -1`, version `"1.0.0"`,
    `agents` defaulted from `getAgentsForFramework`, `scope` defaulted to
    `"all"`), silently overwriting anything already stored. -/
theorem createSession_unconditional_overwrite
    (prior : Option YoomSession) (options : CreateSessionOptions) (now : Str) :
    createSessionSt prior options now = createSessionSt none options now ∧
    (createSessionSt prior options now).1 =
      some (createSessionSt prior options now).2 ∧
    (createSessionSt prior options now).2.features = [] ∧
    (createSessionSt prior options now).2.currentFeatureIndex = -1 ∧
    (createSessionSt prior options now).2.version = str "1.0.0" ∧
    (createSessionSt prior options now).2.config.agents =
      options.agents.getD (getAgentsForFramework options.framework options.mode) ∧
    (createSessionSt prior options now).2.config.scope =
      options.scope.getD (str "all") :=
  ⟨rfl, rfl, rfl, rfl, rfl, rfl, rfl⟩

/-! ## C9 — `startNextFeature` failure atomicity -/

/-- **C9.** When no feature at an index strictly greater than
    `currentFeatureIndex` is `pending`, `startNextFeature` returns the
    Absent result and the stored session is bit-for-bit unchanged
    (`lastActivityAt` included): nothing is written. -/
theorem startNextFeature_none_pending_unchanged (s : YoomSession) (now : Str)
    (h : ∀ p ∈ s.features.enum,
      s.currentFeatureIndex < (p.1 : Int) → p.2.status ≠ .pending) :
    startNextFeatureSt (some s) now = (some s, none) := by
  have hnone : s.features.enum.find? (fun p =>
      (s.currentFeatureIndex < (p.1 : Int)) && (p.2.status = FeatureStatus.pending)) = none := by
    rw [List.find?_eq_none]
    intro p hp
    simp only [Bool.and_eq_true, decide_eq_true_eq, not_and]
    exact fun hlt hpend => h p hp hlt hpend
  simp [startNextFeatureSt, hnone]

/-- Witness for C9: a session whose only feature is completed. -/
theorem startNextFeature_none_pending_unchanged_witness :
    startNextFeatureSt (some allDoneSession) (str "n") = (some allDoneSession, none) :=
  startNextFeature_none_pending_unchanged allDoneSession (str "n") (by decide)

/-! ## C2 — `loadSession` and I/O failures -/

/-- **C2 counterexample.** The claim says an I/O failure on an existing
    file propagates as a hard error; in the code the `catch` swallows it
    and `loadSession` returns the Absent result instead. -/
theorem loadSession_swallows_io_failure :
    loadSessionFs (.unreadable { message := str "EACCES" }) =
      .ok (none : Option YoomSession) ∧
    ∀ e : IOError,
      loadSessionFs (.unreadable { message := str "EACCES" }) ≠ .error e := by
  refine ⟨rfl, fun e h => ?_⟩
  exact Except.noConfusion h

/-- **C2 (amended).** `loadSession` never propagates any failure: a
    missing file, an unreadable file (I/O error), and unparsable content
    all yield the Absent result; readable content yields the parse of
    that content (Absent when the fenced block is missing or invalid). -/
theorem loadSession_never_raises (file : FileState) :
    (∀ e, loadSessionFs file ≠ .error e) ∧
    (file = .absent → loadSessionFs file = .ok none) ∧
    (∀ err, file = .unreadable err → loadSessionFs file = .ok none) ∧
    (∀ c, file = .readable c →
      loadSessionFs file = .ok (loadSessionContent c)) ∧
    (∀ c, file = .readable c → extractJsonBlock c = none →
      loadSessionFs file = .ok none) := by
  cases file with
  | absent => exact ⟨fun e h => Except.noConfusion h, fun _ => rfl,
      fun _ h => FileState.noConfusion h, fun _ h => FileState.noConfusion h,
      fun _ h _ => FileState.noConfusion h⟩
  | readable c =>
    refine ⟨fun e h => Except.noConfusion h, fun h => FileState.noConfusion h,
      fun _ h => FileState.noConfusion h, fun c' h => ?_, fun c' h hx => ?_⟩
    · cases h; rfl
    · cases h
      simp [loadSessionFs, loadSessionContent, parseSessionMarkdown, hx]
  | unreadable e =>
    exact ⟨fun _ h => Except.noConfusion h, fun h => FileState.noConfusion h,
      fun _ h => rfl, fun _ h => FileState.noConfusion h,
      fun _ h _ => FileState.noConfusion h⟩

/-- Witness for C2 (amended): applied to a readable file whose content
    has no fenced block. -/
theorem loadSession_never_raises_witness :
    loadSessionFs (.readable (str "# junk")) = .ok none :=
  (loadSession_never_raises (.readable (str "# junk"))).2.2.2.2
    (str "# junk") rfl (by decide)

/-! ## C3 — `combineRules` roster resolution -/

/-- **C3 counterexample.** With no framework and `fullMode = false` the
    claim promises a single-agent roster; the code returns the fixed
    four-agent roster regardless of `fullMode`. -/
theorem combineRules_no_framework_custom_is_four :
    (combineRules none none false).agents =
      [str "yoom-bot", str "code-reviewer", str "tester", str "git-committer"] ∧
    (combineRules none none false).agents.length ≠ 1 := by
  exact ⟨rfl, by decide⟩

/-- **C3 (amended).** `combineRules` roster resolution: an explicit
    agent list always wins; with a framework, `fullMode` selects its
    `fullMode` or `default` roster; with no framework, the fixed
    four-agent roster is returned regardless of `fullMode` (the
    single-agent fallback lives only in `getAgentsForFramework`). -/
theorem combineRules_roster (framework : Option FrameworkConfig)
    (agents : Option (List Str)) (fullMode : Bool) :
    (∀ a, agents = some a → (combineRules framework agents fullMode).agents = a) ∧
    (∀ fw, framework = some fw → agents = none →
      (combineRules framework agents fullMode).agents =
        (if fullMode then fw.agents.fullMode else fw.agents.default)) ∧
    (framework = none → agents = none →
      (combineRules framework agents fullMode).agents =
        [str "yoom-bot", str "code-reviewer", str "tester", str "git-committer"]) := by
  cases framework <;> cases agents <;>
    refine ⟨fun a ha => ?_, fun fw hfw hag => ?_, fun hfw hag => ?_⟩ <;>
    first
      | rfl
      | (cases ha; rfl)
      | (cases hfw; rfl)
      | (cases hfw; cases hag; rfl)
      | exact Option.noConfusion ha
      | exact Option.noConfusion hag
      | exact Option.noConfusion hfw

/-- Witness for C3 (amended): the nextjs config in full mode. -/
theorem combineRules_roster_witness :
    (combineRules (some nextjsConfig) none true).agents =
      (if true then nextjsConfig.agents.fullMode else nextjsConfig.agents.default) :=
  (combineRules_roster (some nextjsConfig) none true).2.1 nextjsConfig rfl rfl


/-! ## C6 — `completeCurrentStep` contract -/

/-- The successor computed inline by `completeCurrentStep` coincides with
    `getNextStep` from `types.ts` on every step. -/
theorem inlineNext_eq_getNextStep (c : FeatureStep) :
    (if FEATURE_STEP_ORDER.indexOf c < FEATURE_STEP_ORDER.length - 1 then
       FEATURE_STEP_ORDER.get? (FEATURE_STEP_ORDER.indexOf c + 1)
     else none) = getNextStep c := by
  cases c <;> rfl

/-- Helper: the Absent/invalid-state branch of `completeCurrentStep`. -/
theorem completeStep_invalid (s : YoomSession) (now : Str)
    (h : (getFeat s.features s.currentFeatureIndex).bind (·.currentStep) = none) :
    completeCurrentStepSt (some s) now = (some s, none) := by
  cases hgf : getFeat s.features s.currentFeatureIndex with
  | none => simp [completeCurrentStepSt, hgf]
  | some f =>
    have hcs : f.currentStep = none := by
      rw [hgf] at h
      simpa using h
    simp [completeCurrentStepSt, hgf, hcs]

/-- Helper: the advancing branch of `completeCurrentStep`, phrased with
    `getNextStep`. -/
theorem completeStep_advance (s : YoomSession) (now : Str) (f : YoomFeature)
    (c : FeatureStep) (hf : getFeat s.features s.currentFeatureIndex = some f)
    (hc : f.currentStep = some c) :
    completeCurrentStepSt (some s) now =
      (let completed' := if f.completedSteps.contains c then f.completedSteps
                         else f.completedSteps ++ [c]
       let f' := match getNextStep c with
         | some ns =>
             { f with
               completedSteps := completed'
               updatedAt := now
               currentStep := some ns }
         | none =>
             { f with
               completedSteps := completed'
               updatedAt := now
               status := .completed
               currentStep := none }
       let s' :=
         { s with
           lastActivityAt := now
           features := setFeat s.features s.currentFeatureIndex f' }
       (some s',
        some { session := s'
               nextStep := getNextStep c
               featureCompleted := (getNextStep c).isNone })) := by
  simp only [completeCurrentStepSt, hf, hc]
  rw [inlineNext_eq_getNextStep c]

/-- **C6.** `completeCurrentStep` contract: with a loadable session, a
    missing current feature or missing current step yields the Absent
    result with the state untouched; otherwise the current step is added
    to `completedSteps` only if absent, the successor in the fixed order
    becomes `currentStep` when it exists, the feature is completed (status
    `completed`, step cleared) when it does not, and the caller receives
    `nextStep` (the successor or `none`) with `featureCompleted` true
    exactly when no successor exists. -/
theorem completeCurrentStep_contract (s : YoomSession) (now : Str) :
    ((getFeat s.features s.currentFeatureIndex).bind (·.currentStep) = none →
      completeCurrentStepSt (some s) now = (some s, none)) ∧
    (∀ f c, getFeat s.features s.currentFeatureIndex = some f →
      f.currentStep = some c →
      completeCurrentStepSt (some s) now =
        (let completed' := if f.completedSteps.contains c then f.completedSteps
                           else f.completedSteps ++ [c]
         let f' := match getNextStep c with
           | some ns =>
               { f with
                 completedSteps := completed'
                 updatedAt := now
                 currentStep := some ns }
           | none =>
               { f with
                 completedSteps := completed'
                 updatedAt := now
                 status := .completed
                 currentStep := none }
         let s' :=
           { s with
             lastActivityAt := now
             features := setFeat s.features s.currentFeatureIndex f' }
         (some s',
          some { session := s'
                 nextStep := getNextStep c
                 featureCompleted := (getNextStep c).isNone }))) :=
  ⟨completeStep_invalid s now, fun f c hf hc => completeStep_advance s now f c hf hc⟩

/-- A session one step from completion: single feature at `COMMIT`. -/
def lastStepSession : YoomSession :=
  { baseSession with
    features := [{ name := str "A", description := [], status := .in_progress,
                   currentStep := some .COMMIT,
                   completedSteps := [.DEVELOP, .REVIEW, .TEST, .REFACTOR, .DOCUMENT],
                   notes := [], createdAt := str "c", updatedAt := str "u" }],
    currentFeatureIndex := 0 }

/-- Witness for C6: completing `COMMIT` completes the feature. -/
theorem completeCurrentStep_contract_witness :
    (completeCurrentStepSt (some lastStepSession) (str "n")).2.map
        (fun r => (r.nextStep, r.featureCompleted)) = some (none, true) ∧
    ((completeCurrentStepSt (some lastStepSession) (str "n")).1.bind
        (fun s => getFeat s.features 0)).map (fun f => (f.status, f.currentStep)) =
      some (.completed, none) := by
  have h := (completeCurrentStep_contract lastStepSession (str "n")).2
    (lastStepSession.features.get ⟨0, by decide⟩) .COMMIT (by decide) (by decide)
  rw [show completeCurrentStepSt (some lastStepSession) (str "n") =
    _ from h]
  exact ⟨by decide, by decide⟩

/-! ## C1 — single-feature lifecycle scenario -/

/-- The `addFeature` payload of the scenario: one pending feature named
    `"Auth"`. -/
def addAuthUpdate : UpdateSessionOptions :=
  { addFeature := some { name := str "Auth", description := [], status := .pending } }

/-- The state after `createSession` then `updateSession{addFeature}`. -/
def authAddedState (t0 t1 : Str) : Option YoomSession :=
  (updateSessionSt (createSessionSt none sampleOptions t0).1 addAuthUpdate t1).1

/-- **C1 counterexample.** Adding the first feature sets
    `currentFeatureIndex = 0` (as claimed), but the very next
    `startNextFeature` then returns the Absent result and leaves the
    feature `pending` with no step — it scans only indices *strictly
    greater* than the current one, so it never starts the auto-selected
    first feature, contradicting the claimed transition to
    `in_progress`/`DEVELOP`. -/
theorem lifecycle_startNextFeature_returns_absent :
    (authAddedState (str "t0") (str "t1")).map (·.currentFeatureIndex) = some 0 ∧
    (startNextFeatureSt (authAddedState (str "t0") (str "t1")) (str "t2")).2 = none ∧
    (startNextFeatureSt (authAddedState (str "t0") (str "t1")) (str "t2")).1 =
      authAddedState (str "t0") (str "t1") ∧
    ((authAddedState (str "t0") (str "t1")).bind
        (fun s => getFeat s.features 0)).map
        (fun f => (f.status, f.currentStep)) = some (.pending, none) := by
  exact ⟨rfl, rfl, rfl, rfl⟩

/-- Fold a list of timestamps over `completeCurrentStep`, keeping the
    final state and the last returned value. -/
def completeSteps (st : Option YoomSession) :
    List Str → Option YoomSession × Option CompleteStepResult
  | [] => (st, none)
  | t :: ts =>
    let r := completeCurrentStepSt st t
    match ts with
    | [] => r
    | _ => completeSteps r.1 ts

/-- **C1 (amended).** The lifecycle scenario with the one correction the
    code forces: after adding "Auth", `currentFeatureIndex` is `0` but the
    feature stays `pending` and `startNextFeature` returns Absent; once
    `currentFeatureIndex` is reset to `-1` (so the first feature lies
    strictly after it), `startNextFeature` marks it `in_progress` at
    `DEVELOP`, and six `completeCurrentStep` calls then traverse
    DEVELOP..COMMIT — the sixth returns `featureCompleted = true` and
    leaves the feature `completed` with `currentStep` absent. -/
theorem lifecycle_scenario_with_reset (t0 t1 t2 t3 u1 u2 u3 u4 u5 u6 : Str) :
    (authAddedState t0 t1).map (·.currentFeatureIndex) = some 0 ∧
    (startNextFeatureSt (authAddedState t0 t1) t2).2 = none ∧
    (let reset := (updateSessionSt (authAddedState t0 t1)
        { setCurrentFeature := some (-1) } t2).1
     let started := (startNextFeatureSt reset t3).1
     (started.bind (fun s => getFeat s.features 0)).map
        (fun f => (f.status, f.currentStep)) =
       some (.in_progress, some .DEVELOP) ∧
     (let final := completeSteps started [u1, u2, u3, u4, u5, u6]
      final.2.map (fun r => (r.nextStep, r.featureCompleted)) =
        some (none, true) ∧
      (final.1.bind (fun s => getFeat s.features 0)).map
          (fun f => (f.status, f.currentStep, f.completedSteps)) =
        some (.completed, none, FEATURE_STEP_ORDER))) := by
  exact ⟨rfl, rfl, rfl, rfl, rfl⟩


/-! ## C7 / C8 — detection confidence and short-circuit priority -/

/-- Whether the registered detector of `name` fires on `root` (false for
    names without a registered detector). -/
def detectorFires (name : Str) (root : ProjectRoot) : Bool :=
  match FRAMEWORK_DETECTORS name with
  | some detector => detector root
  | none => false

/-- Loop invariant of `detectFramework`: any result's matched markers are
    the detection patterns present on disk, in declaration order, and the
    confidence is `1.0` with two or more of them, else `0.8`; a miss
    returns the empty result. -/
theorem detectGo_spec (root : ProjectRoot) : ∀ names : List Str,
    ((detectFrameworkGo root names).framework = none →
      detectFrameworkGo root names =
        { framework := none, confidence := 0, matchedFiles := [] }) ∧
    (∀ cfg, (detectFrameworkGo root names).framework = some cfg →
      (detectFrameworkGo root names).matchedFiles =
        cfg.detection.filter (fun pattern => fileExists root pattern) ∧
      (detectFrameworkGo root names).confidence =
        (if 2 ≤ (detectFrameworkGo root names).matchedFiles.length
         then (1.0 : ℚ) else (0.8 : ℚ)))
  | [] => ⟨fun _ => rfl, fun cfg h => by simp [detectFrameworkGo] at h⟩
  | n :: rest => by
    have ih := detectGo_spec root rest
    cases hdet : FRAMEWORK_DETECTORS n with
    | none => simpa [detectFrameworkGo, hdet] using ih
    | some d =>
      by_cases hfire : d root
      · cases hcfg : FRAMEWORK_CONFIGS.lookup n with
        | none => simpa [detectFrameworkGo, hdet, hfire, hcfg] using ih
        | some config =>
          refine ⟨fun habs => ?_, fun cfg hcfg' => ?_⟩
          · simp [detectFrameworkGo, hdet, hfire, hcfg] at habs
          · simp only [detectFrameworkGo, hdet, hfire, if_true, hcfg] at hcfg' ⊢
            cases hcfg'
            exact ⟨rfl, by simp⟩
      · simpa [detectFrameworkGo, hdet, hfire] using ih

/-- **C7 (amended).** Detection confidence: when a framework is matched,
    the matched-marker list is exactly the framework's declared detection
    patterns present on disk and the confidence is `1.0` when two or more
    of them are present, else `0.8` — with zero markers possible, since a
    detector can fire on a dependency alone; on a miss the result is
    `{framework: null, confidence: 0, matchedMarkers: []}`. -/
theorem detectFramework_confidence (root : ProjectRoot) :
    ((detectFramework root).framework = none →
      detectFramework root =
        { framework := none, confidence := 0, matchedFiles := [] }) ∧
    (∀ cfg, (detectFramework root).framework = some cfg →
      (detectFramework root).matchedFiles =
        cfg.detection.filter (fun pattern => fileExists root pattern) ∧
      (detectFramework root).confidence =
        (if 2 ≤ (detectFramework root).matchedFiles.length
         then (1.0 : ℚ) else (0.8 : ℚ))) :=
  detectGo_spec root DETECTION_ORDER

/-- A project whose only electron evidence is the `electron` dependency
    in `package.json`: no declared marker file exists. -/
def electronDepRoot : ProjectRoot :=
  { files := [str "package.json"],
    packageJson := some { dependencies := [str "electron"], devDependencies := [] } }

/-- **C7 counterexample.** The claim's 0.8 case asserts exactly one
    declared marker is present; matching electron through its dependency
    alone yields confidence `0.8` with an empty matched-marker list. -/
theorem detect_confidence_without_markers :
    (detectFramework electronDepRoot).framework = some electronConfig ∧
    (detectFramework electronDepRoot).confidence = (0.8 : ℚ) ∧
    (detectFramework electronDepRoot).matchedFiles = [] :=
  ⟨rfl, rfl, rfl⟩

/-- Witness for C7 (amended): the electron-by-dependency project. -/
theorem detectFramework_confidence_witness :
    (detectFramework electronDepRoot).matchedFiles =
      electronConfig.detection.filter
        (fun pattern => fileExists electronDepRoot pattern) ∧
    (detectFramework electronDepRoot).confidence =
      (if 2 ≤ (detectFramework electronDepRoot).matchedFiles.length
       then (1.0 : ℚ) else (0.8 : ℚ)) :=
  (detectFramework_confidence electronDepRoot).2 electronConfig rfl

/-- First-match lemma: if some name at index `i` fires and every listed
    name has a registered config, detection returns the config of a
    firing name at an index `≤ i`. -/
theorem detectGo_first (root : ProjectRoot) : ∀ (names : List Str) (i : Nat) (f : Str),
    names.get? i = some f → detectorFires f root = true →
    (∀ n ∈ names, (FRAMEWORK_CONFIGS.lookup n).isSome) →
    ∃ k g config, k ≤ i ∧ names.get? k = some g ∧
      detectorFires g root = true ∧
      FRAMEWORK_CONFIGS.lookup g = some config ∧
      (detectFrameworkGo root names).framework = some config
  | [], i, f, hget, _, _ => by simp at hget
  | n :: rest, i, f, hget, hfires, hconfigs => by
    by_cases hn : detectorFires n root = true
    · obtain ⟨config, hconfig⟩ :=
        Option.isSome_iff_exists.mp (hconfigs n (List.mem_cons_self n rest))
      obtain ⟨d, hdet, hdr⟩ : ∃ d, FRAMEWORK_DETECTORS n = some d ∧ d root = true := by
        unfold detectorFires at hn
        cases hdet : FRAMEWORK_DETECTORS n with
        | none => rw [hdet] at hn; simp at hn
        | some d => rw [hdet] at hn; exact ⟨d, rfl, hn⟩
      refine ⟨0, n, config, Nat.zero_le i, rfl, hn, hconfig, ?_⟩
      simp [detectFrameworkGo, hdet, hdr, hconfig]
    · cases i with
      | zero =>
        simp only [List.get?] at hget
        cases hget
        exact absurd hfires hn
      | succ i' =>
        simp only [List.get?] at hget
        obtain ⟨k, g, config, hk, hgetk, hg, hconfig, hfw⟩ :=
          detectGo_first root rest i' f hget hfires
            (fun m hm => hconfigs m (List.mem_cons_of_mem n hm))
        refine ⟨k + 1, g, config, Nat.succ_le_succ hk, hgetk, hg, hconfig, ?_⟩
        rw [← hfw]
        cases hdet : FRAMEWORK_DETECTORS n with
        | none => simp [detectFrameworkGo, hdet]
        | some d =>
          have hdr : d root = false := by
            unfold detectorFires at hn
            rw [hdet] at hn
            simpa using hn
          simp [detectFrameworkGo, hdet, hdr]

/-- **C8.** Detection short-circuit: whenever the detectors of two names
    both fire and the first name sits strictly earlier in
    `DETECTION_ORDER`, the detected framework is the config of a firing
    name at a position no later than the earlier one — in particular it
    is never the later of the two. -/
theorem detectFramework_priority_short_circuit (root : ProjectRoot)
    (f1 f2 : Str) (i1 i2 : Nat)
    (h1 : DETECTION_ORDER.get? i1 = some f1)
    (h2 : DETECTION_ORDER.get? i2 = some f2) (hlt : i1 < i2)
    (hf1 : detectorFires f1 root = true)
    (hf2 : detectorFires f2 root = true) :
    ∃ k g config, k ≤ i1 ∧ DETECTION_ORDER.get? k = some g ∧
      detectorFires g root = true ∧
      FRAMEWORK_CONFIGS.lookup g = some config ∧
      (detectFramework root).framework = some config ∧ g ≠ f2 := by
  obtain ⟨k, g, config, hk, hgetk, hg, hconfig, hfw⟩ :=
    detectGo_first root DETECTION_ORDER i1 f1 h1 hf1 (by decide)
  refine ⟨k, g, config, hk, hgetk, hg, hconfig, hfw, ?_⟩
  intro hgf2
  subst hgf2
  have hnodup : DETECTION_ORDER.Nodup := by decide
  have hkl : k < DETECTION_ORDER.length := by
    by_contra hge
    rw [List.get?_eq_none.mpr (Nat.le_of_not_lt hge)] at hgetk
    exact Option.noConfusion hgetk
  have hkk : k = i2 := List.get?_inj hkl hnodup (hgetk.trans h2.symm)
  omega


/-- A project carrying markers of both tauri and electron. -/
def tauriElectronRoot : ProjectRoot :=
  { files := [str "src-tauri/tauri.conf.json", str "electron-builder.json"] }

/-- Witness for C8: tauri and electron both match; detection returns a
    framework no later than tauri in the priority order (tauri itself). -/
theorem detectFramework_priority_short_circuit_witness :
    ∃ k g config, k ≤ 0 ∧ DETECTION_ORDER.get? k = some g ∧
      detectorFires g tauriElectronRoot = true ∧
      FRAMEWORK_CONFIGS.lookup g = some config ∧
      (detectFramework tauriElectronRoot).framework = some config ∧
      g ≠ str "electron" :=
  detectFramework_priority_short_circuit tauriElectronRoot
    (str "tauri") (str "electron") 0 1 rfl rfl (by decide) (by decide) (by decide)


/-! ## C5 — step monotonicity

The claim quantifies over all session operations. The counterexample
below shows `updateSession`'s `featureUpdate` branch can both remove
completed steps and set `currentStep` onto a completed step; the amended
invariant restricts `updateSession` payloads to the benign ones (a
pending feature is added without a current step; `featureUpdate` does not
touch `status`, `currentStep` or `completedSteps`) and then holds along
every operation sequence from a created session. -/

/-- One session-state operation with its timestamp. -/
inductive SessOp where
  | update (updates : UpdateSessionOptions) (now : Str)
  | complete (now : Str)
  | next (now : Str)

/-- State after an operation (the returned value is dropped). -/
def applySessOp (st : Option YoomSession) : SessOp → Option YoomSession
  | .update u now => (updateSessionSt st u now).1
  | .complete now => (completeCurrentStepSt st now).1
  | .next now => (startNextFeatureSt st now).1

/-- A benign `addFeature` payload: a pending feature carries no step. -/
def GoodAdd (af : FeatureAdd) : Prop :=
  af.status = .pending → af.currentStep = none

/-- A benign `updateSession` payload. -/
def GoodUpdate (u : UpdateSessionOptions) : Prop :=
  (∀ af, u.addFeature = some af → GoodAdd af) ∧
  (∀ fu, u.featureUpdate = some fu →
    fu.status = none ∧ fu.currentStep = none ∧ fu.completedSteps = none)

/-- Benign operations: `updateSession` restricted as above, the step and
    feature-advancement operations unrestricted. -/
def GoodOp : SessOp → Prop
  | .update u _ => GoodUpdate u
  | .complete _ => True
  | .next _ => True

/-- States reachable from a created session through benign operations. -/
inductive ReachableSession : Option YoomSession → Prop where
  | created (options : CreateSessionOptions) (now : Str) :
      ReachableSession (createSessionSt none options now).1
  | step (st : Option YoomSession) (op : SessOp) :
      ReachableSession st → GoodOp op → ReachableSession (applySessOp st op)

/-- Position of a step in the fixed order. -/
def stepIdx (s : FeatureStep) : Nat := FEATURE_STEP_ORDER.indexOf s

/-- Per-feature invariant: a pending feature has no history and no
    cursor, and every completed step sits strictly before the cursor. -/
def FeatInv (f : YoomFeature) : Prop :=
  (f.status = .pending → f.completedSteps = [] ∧ f.currentStep = none) ∧
  (∀ c, f.currentStep = some c → ∀ s ∈ f.completedSteps, stepIdx s < stepIdx c)

/-- Session-level invariant. -/
def SessInv : Option YoomSession → Prop
  | none => True
  | some s => ∀ f ∈ s.features, FeatInv f

/-- Membership in a `set` result comes from the list or is the new value. -/
theorem mem_of_mem_set {α : Type} {l : List α} {i : Nat} {b a : α}
    (h : a ∈ l.set i b) : a ∈ l ∨ a = b := by
  induction l generalizing i with
  | nil => simp at h
  | cons x xs ih =>
    cases i with
    | zero =>
      rcases List.mem_cons.mp h with h' | h'
      · exact Or.inr h'
      · exact Or.inl (List.mem_cons_of_mem x h')
    | succ i' =>
      rcases List.mem_cons.mp h with h' | h'
      · exact Or.inl (h' ▸ List.mem_cons_self x xs)
      · rcases ih h' with h'' | h''
        · exact Or.inl (List.mem_cons_of_mem x h'')
        · exact Or.inr h''

/-- The successor always sits strictly later in the order. -/
theorem stepIdx_lt_of_getNextStep :
    ∀ c ns, getNextStep c = some ns → stepIdx c < stepIdx ns := by
  intro c ns h
  cases c <;> cases ns <;> first | decide | (exact absurd h (by decide))

/-- A freshly added benign feature satisfies the invariant. -/
theorem featInv_mkAdded (af : FeatureAdd) (now : Str) (h : GoodAdd af) :
    FeatInv (mkAddedFeature af now) := by
  refine ⟨fun hp => ⟨rfl, h hp⟩, fun c hc s hs => ?_⟩
  simp [mkAddedFeature] at hs

/-- A benign `featureUpdate` preserves the invariant (it leaves `status`,
    `currentStep` and `completedSteps` untouched). -/
theorem featInv_applyUpdate (f : YoomFeature) (fu : FeatureUpdate) (now : Str)
    (hfu : fu.status = none ∧ fu.currentStep = none ∧ fu.completedSteps = none)
    (h : FeatInv f) : FeatInv (applyFeatureUpdate f fu now) := by
  obtain ⟨h1, h2, h3⟩ := hfu
  unfold applyFeatureUpdate
  rw [h1, h2, h3]
  exact h

/-- `updateSession` with a benign payload preserves the invariant. -/
theorem sessInv_update (st : Option YoomSession) (u : UpdateSessionOptions)
    (now : Str) (hu : GoodUpdate u) (h : SessInv st) :
    SessInv (updateSessionSt st u now).1 := by
  cases st with
  | none => trivial
  | some s0 =>
    simp only [updateSessionSt]
    intro f hf
    simp only [updDiscovery, updAddNote, updSetCurrent] at hf
    -- the three trailing branches do not change `features`
    have hf2 : f ∈ (updFeatureUpdate
        (updAddFeature { s0 with lastActivityAt := now } u now) u now).features := by
      cases hd : u.discovery <;> cases ha : u.addNote <;>
        simp only [hd, ha] at hf <;>
        first
          | exact hf
          | (cases hsc : u.setCurrentFeature <;> simp only [hsc] at hf <;> exact hf)
          | (split at hf <;>
             first
               | exact hf
               | (cases hsc : u.setCurrentFeature <;> simp only [hsc] at hf <;> exact hf))
    -- the add-feature stage
    have hadd : ∀ g ∈ (updAddFeature { s0 with lastActivityAt := now } u now).features,
        FeatInv g := by
      intro g hg
      cases haf : u.addFeature with
      | none =>
        simp only [updAddFeature, haf] at hg
        exact h g hg
      | some af =>
        simp only [updAddFeature, haf] at hg
        rcases List.mem_append.mp hg with hg' | hg'
        · exact h g hg'
        · rcases List.mem_singleton.mp hg' with rfl
          exact featInv_mkAdded af now (hu.1 af haf)
    -- the feature-update stage
    cases hui : u.updateFeatureIndex with
    | none =>
      simp only [updFeatureUpdate, hui] at hf2
      exact hadd f hf2
    | some i =>
      cases hfu : u.featureUpdate with
      | none =>
        simp only [updFeatureUpdate, hui, hfu] at hf2
        exact hadd f hf2
      | some fu =>
        simp only [updFeatureUpdate, hui, hfu] at hf2
        cases hget : getFeat (updAddFeature { s0 with lastActivityAt := now } u now).features i with
        | none =>
          rw [hget] at hf2
          exact hadd f hf2
        | some g =>
          rw [hget] at hf2
          simp only [setFeat] at hf2
          by_cases hneg : i < 0
          · rw [if_pos hneg] at hf2
            exact hadd f hf2
          · rw [if_neg hneg] at hf2
            rcases mem_of_mem_set hf2 with hmem | rfl
            · exact hadd f hmem
            · have hgmem : g ∈ (updAddFeature { s0 with lastActivityAt := now } u now).features := by
                unfold getFeat at hget
                rw [if_neg hneg] at hget
                exact List.get?_mem hget
              exact featInv_applyUpdate g fu now (hu.2 fu hfu) (hadd g hgmem)

/-- `completeCurrentStep` preserves the invariant. -/
theorem sessInv_complete (st : Option YoomSession) (now : Str)
    (h : SessInv st) : SessInv (completeCurrentStepSt st now).1 := by
  cases st with
  | none => trivial
  | some s0 =>
    cases hgf : getFeat s0.features s0.currentFeatureIndex with
    | none =>
      rw [completeStep_invalid s0 now (by rw [hgf]; rfl)]
      exact h
    | some f =>
      cases hcs : f.currentStep with
      | none =>
        rw [completeStep_invalid s0 now (by rw [hgf]; simp [hcs])]
        exact h
      | some c =>
        rw [completeStep_advance s0 now f c hgf hcs]
        intro g hg
        simp only [setFeat] at hg
        by_cases hneg : s0.currentFeatureIndex < 0
        · rw [if_pos hneg] at hg
          exact h g hg
        · rw [if_neg hneg] at hg
          have hfmem : f ∈ s0.features := by
            unfold getFeat at hgf
            rw [if_neg hneg] at hgf
            exact List.get?_mem hgf
          have hfinv := h f hfmem
          have hnotpending : f.status ≠ .pending := by
            intro hp
            have := (hfinv.1 hp).2
            rw [this] at hcs
            exact Option.noConfusion hcs
          have hcompleted : ∀ s ∈ (if f.completedSteps.contains c then
              f.completedSteps else f.completedSteps ++ [c]),
              stepIdx s ≤ stepIdx c := by
            intro s hs
            by_cases hmem : f.completedSteps.contains c
            · rw [if_pos hmem] at hs
              exact Nat.le_of_lt (hfinv.2 c hcs s hs)
            · rw [if_neg hmem] at hs
              rcases List.mem_append.mp hs with hs' | hs'
              · exact Nat.le_of_lt (hfinv.2 c hcs s hs')
              · rcases List.mem_singleton.mp hs' with rfl
                exact Nat.le_refl _
          rcases mem_of_mem_set hg with hmem | rfl
          · exact h g hmem
          · cases hns : getNextStep c with
            | none =>
              simp only [hns]
              exact ⟨fun hp => by simp at hp, fun c' hc' => by simp at hc'⟩
            | some ns =>
              simp only [hns]
              refine ⟨fun hp => absurd hp hnotpending, fun c' hc' s hs => ?_⟩
              simp only at hc' hs
              injection hc' with he
              have hlt := stepIdx_lt_of_getNextStep c ns hns
              have h1 := hcompleted s hs
              rw [← he]
              omega

/-- `startNextFeature` preserves the invariant. -/
theorem sessInv_next (st : Option YoomSession) (now : Str)
    (h : SessInv st) : SessInv (startNextFeatureSt st now).1 := by
  cases st with
  | none => trivial
  | some s0 =>
    simp only [startNextFeatureSt]
    cases hfind : s0.features.enum.find? (fun p =>
        (s0.currentFeatureIndex < (p.1 : Int)) && (p.2.status = FeatureStatus.pending)) with
    | none => exact h
    | some p =>
      obtain ⟨i, f⟩ := p
      intro g hg
      rcases mem_of_mem_set hg with hmem | rfl
      · exact h g hmem
      · refine ⟨fun hp => by simp at hp, fun c hc s hs => ?_⟩
        have hfmem : f ∈ s0.features := by
          have := List.mem_of_find?_eq_some hfind
          have hmem := List.mem_enum_iff_getElem?.mp this
          exact List.getElem?_mem hmem
        have hpend : f.status = .pending := by
          have := List.find?_some hfind
          simp only [Bool.and_eq_true, decide_eq_true_eq] at this
          exact this.2
        have := (h f hfmem).1 hpend
        simp only at hc
        rw [this.1] at hs
        simp at hs

/-- Reachable states satisfy the invariant. -/
theorem reachable_sessInv (st : Option YoomSession)
    (h : ReachableSession st) : SessInv st := by
  induction h with
  | created options now => intro f hf; simp [createSessionSt] at hf
  | step st op hr hop ih =>
    cases op with
    | update u now => exact sessInv_update st u now hop ih
    | complete now => exact sessInv_complete st now ih
    | next now => exact sessInv_next st now ih

/-- Step monotonicity between two optional states: every feature keeps
    its index and keeps every completed step. -/
def stepsPreserved (a b : Option YoomSession) : Prop :=
  ∀ sa, a = some sa → ∃ sb, b = some sb ∧
    ∀ i fa, sa.features.get? i = some fa → ∃ fb,
      sb.features.get? i = some fb ∧
      ∀ s ∈ fa.completedSteps, s ∈ fb.completedSteps


/-- The three trailing `updateSession` stages leave `features` alone. -/
theorem features_updSetCurrent (s : YoomSession) (u : UpdateSessionOptions) :
    (updSetCurrent s u).features = s.features := by
  cases h : u.setCurrentFeature <;> simp [updSetCurrent, h]

theorem features_updAddNote (s : YoomSession) (u : UpdateSessionOptions)
    (now : Str) : (updAddNote s u now).features = s.features := by
  cases h : u.addNote with
  | none => simp [updAddNote, h]
  | some n =>
    simp only [updAddNote, h]
    split <;> rfl

theorem features_updDiscovery (s : YoomSession) (u : UpdateSessionOptions) :
    (updDiscovery s u).features = s.features := by
  cases h : u.discovery <;> simp [updDiscovery, h]

/-- Indexed lookup through a benign `updFeatureUpdate`: the feature at
    each index keeps its `completedSteps` verbatim. -/
theorem updFeatureUpdate_get? (s : YoomSession) (u : UpdateSessionOptions)
    (now : Str)
    (hu : ∀ fu, u.featureUpdate = some fu → fu.completedSteps = none)
    (i : Nat) (fa : YoomFeature) (hfa : s.features.get? i = some fa) :
    ∃ fb, (updFeatureUpdate s u now).features.get? i = some fb ∧
      fb.completedSteps = fa.completedSteps := by
  cases hui : u.updateFeatureIndex with
  | none => exact ⟨fa, by simpa [updFeatureUpdate, hui] using hfa, rfl⟩
  | some j =>
    cases hfu : u.featureUpdate with
    | none => exact ⟨fa, by simpa [updFeatureUpdate, hui, hfu] using hfa, rfl⟩
    | some fu =>
      have hred : updFeatureUpdate s u now =
          (match getFeat s.features j with
           | some f =>
               { s with features := setFeat s.features j (applyFeatureUpdate f fu now) }
           | none => s) := by
        simp only [updFeatureUpdate, hui, hfu]
      rw [hred]
      cases hget : getFeat s.features j with
      | none => exact ⟨fa, hfa, rfl⟩
      | some g =>
        show ∃ fb,
          (setFeat s.features j (applyFeatureUpdate g fu now)).get? i = some fb ∧
          fb.completedSteps = fa.completedSteps
        have hjneg : ¬ j < 0 := by
          intro hneg
          unfold getFeat at hget
          rw [if_pos hneg] at hget
          exact Option.noConfusion hget
        simp only [setFeat, if_neg hjneg]
        by_cases hij : i = j.toNat
        · have hg : g = fa := by
            unfold getFeat at hget
            rw [if_neg hjneg] at hget
            rw [← hij] at hget
            exact Option.some_injective _ (hget.symm.trans hfa)
          subst hg
          rcases List.get?_eq_some.mp hfa with ⟨hl, _⟩
          rw [hij] at hl
          rw [hij]
          refine ⟨applyFeatureUpdate g fu now,
            List.get?_set_eq_of_lt _ hl, ?_⟩
          unfold applyFeatureUpdate
          rw [hu fu hfu]
          rfl
        · exact ⟨fa, by
            rw [List.get?_set_ne _ _ (fun h => hij h.symm)]; exact hfa, rfl⟩

/-- Benign `updateSession` never loses a completed step. -/
theorem mono_update (st : Option YoomSession) (u : UpdateSessionOptions)
    (now : Str) (hu : GoodUpdate u) :
    stepsPreserved st (updateSessionSt st u now).1 := by
  intro sa ha
  cases st with
  | none => exact Option.noConfusion ha
  | some s0 =>
    cases ha
    simp only [updateSessionSt]
    refine ⟨_, rfl, ?_⟩
    intro i fa hfa
    rw [features_updDiscovery, features_updAddNote, features_updSetCurrent]
    have hbase : (updAddFeature { sa with lastActivityAt := now } u now).features.get? i
        = some fa := by
      cases haf : u.addFeature with
      | none => simpa [updAddFeature, haf] using hfa
      | some af =>
        have hlen : i < sa.features.length := by
          rcases List.get?_eq_some.mp hfa with ⟨hl, _⟩
          exact hl
        simp only [updAddFeature, haf]
        rw [List.get?_append hlen]
        exact hfa
    obtain ⟨fb, hfb, hsteps⟩ :=
      updFeatureUpdate_get? (updAddFeature { sa with lastActivityAt := now } u now)
        u now (fun fu hfu => (hu.2 fu hfu).2.2) i fa hbase
    exact ⟨fb, hfb, fun s hs => hsteps ▸ hs⟩

/-- `completeCurrentStep` never loses a completed step. -/
theorem mono_complete (st : Option YoomSession) (now : Str) :
    stepsPreserved st (completeCurrentStepSt st now).1 := by
  intro sa ha
  cases st with
  | none => exact Option.noConfusion ha
  | some s0 =>
    cases ha
    cases hgf : getFeat sa.features sa.currentFeatureIndex with
    | none =>
      rw [completeStep_invalid sa now (by rw [hgf]; rfl)]
      exact ⟨sa, rfl, fun i fa hfa => ⟨fa, hfa, fun s hs => hs⟩⟩
    | some f =>
      cases hcs : f.currentStep with
      | none =>
        rw [completeStep_invalid sa now (by rw [hgf]; simp [hcs])]
        exact ⟨sa, rfl, fun i fa hfa => ⟨fa, hfa, fun s hs => hs⟩⟩
      | some c =>
        rw [completeStep_advance sa now f c hgf hcs]
        refine ⟨_, rfl, ?_⟩
        intro i fa hfa
        have hneg : ¬ sa.currentFeatureIndex < 0 := by
          intro hneg
          unfold getFeat at hgf
          rw [if_pos hneg] at hgf
          exact Option.noConfusion hgf
        simp only [setFeat, if_neg hneg]
        by_cases hij : i = sa.currentFeatureIndex.toNat
        · have hf : f = fa := by
            unfold getFeat at hgf
            rw [if_neg hneg] at hgf
            rw [← hij] at hgf
            exact Option.some_injective _ (hgf.symm.trans hfa)
          subst hf
          rcases List.get?_eq_some.mp hfa with ⟨hl, _⟩
          rw [hij] at hl
          have hsub : ∀ s ∈ f.completedSteps,
              s ∈ (if f.completedSteps.contains c then f.completedSteps
                   else f.completedSteps ++ [c]) := by
            intro s hs
            by_cases hmem : f.completedSteps.contains c
            · rw [if_pos hmem]; exact hs
            · rw [if_neg hmem]; exact List.mem_append.mpr (Or.inl hs)
          rw [hij]
          cases hns : getNextStep c with
          | none =>
            exact ⟨_, List.get?_set_eq_of_lt _ hl, fun s hs => hsub s hs⟩
          | some ns =>
            exact ⟨_, List.get?_set_eq_of_lt _ hl, fun s hs => hsub s hs⟩
        · exact ⟨fa, by
            rw [List.get?_set_ne _ _ (fun h => hij h.symm)]; exact hfa,
            fun s hs => hs⟩

/-- `startNextFeature` never loses a completed step. -/
theorem mono_next (st : Option YoomSession) (now : Str) :
    stepsPreserved st (startNextFeatureSt st now).1 := by
  intro sa ha
  cases st with
  | none => exact Option.noConfusion ha
  | some s0 =>
    cases ha
    simp only [startNextFeatureSt]
    cases hfind : sa.features.enum.find? (fun p =>
        (sa.currentFeatureIndex < (p.1 : Int)) && (p.2.status = FeatureStatus.pending)) with
    | none => exact ⟨sa, rfl, fun i fa hfa => ⟨fa, hfa, fun s hs => hs⟩⟩
    | some p =>
      obtain ⟨j, f⟩ := p
      refine ⟨_, rfl, ?_⟩
      intro i fa hfa
      by_cases hij : i = j
      · subst hij
        have hjf : sa.features.get? i = some f := by
          have := List.mem_enum_iff_getElem?.mp (List.mem_of_find?_eq_some hfind)
          simpa [List.get?_eq_getElem?] using this
        have hf : f = fa := Option.some_injective _ (hjf.symm.trans hfa)
        subst hf
        have hl : i < sa.features.length := by
          rcases List.get?_eq_some.mp hfa with ⟨hl, _⟩
          exact hl
        exact ⟨_, List.get?_set_eq_of_lt _ hl, fun s hs => hs⟩
      · exact ⟨fa, by
          rw [List.get?_set_ne _ _ (fun h => hij h.symm)]; exact hfa,
          fun s hs => hs⟩

/-- **C5 (amended).** Along benign operation sequences from a created
    session (pending features added without a step; `featureUpdate` not
    touching `status`, `currentStep` or `completedSteps`), every
    operation preserves membership of `completedSteps` feature by
    feature, and afterwards no feature's `currentStep` is a member of its
    `completedSteps` — so no operation ever sets the cursor onto an
    already-completed step. Unrestricted `featureUpdate` payloads break
    both halves (see the counterexample). -/
theorem step_monotonicity (st : Option YoomSession) (op : SessOp)
    (hreach : ReachableSession st) (hop : GoodOp op) :
    stepsPreserved st (applySessOp st op) ∧
    (∀ s', applySessOp st op = some s' → ∀ f ∈ s'.features, ∀ c,
      f.currentStep = some c → c ∉ f.completedSteps) := by
  constructor
  · cases op with
    | update u now => exact mono_update st u now hop
    | complete now => exact mono_complete st now
    | next now => exact mono_next st now
  · have hinv := reachable_sessInv _ (ReachableSession.step st op hreach hop)
    intro s' hs' f hf c hc hmem
    rw [hs'] at hinv
    have := (hinv f hf).2 c hc c hmem
    omega

/-- Witness for C5 (amended): one `completeCurrentStep` on a freshly
    created session. -/
theorem step_monotonicity_witness :
    stepsPreserved (createSessionSt none sampleOptions (str "t")).1
      (applySessOp (createSessionSt none sampleOptions (str "t")).1
        (.complete (str "u"))) ∧
    (∀ s', applySessOp (createSessionSt none sampleOptions (str "t")).1
        (.complete (str "u")) = some s' → ∀ f ∈ s'.features, ∀ c,
      f.currentStep = some c → c ∉ f.completedSteps) :=
  step_monotonicity (createSessionSt none sampleOptions (str "t")).1
    (.complete (str "u"))
    (ReachableSession.created sampleOptions (str "t")) trivial

/-- An `addFeature` payload carrying a step on a pending feature
    (permitted by the types, used to reach the counterexample state). -/
def pendingWithStep : UpdateSessionOptions :=
  { addFeature := some { name := str "A", description := [],
                         status := .pending, currentStep := some .DEVELOP } }

/-- A `featureUpdate` payload that wipes the completed steps. -/
def wipeCompleted : UpdateSessionOptions :=
  { updateFeatureIndex := some 0,
    featureUpdate := some { completedSteps := some [] } }

/-- A `featureUpdate` payload that moves the cursor back to `DEVELOP`. -/
def cursorBack : UpdateSessionOptions :=
  { updateFeatureIndex := some 0,
    featureUpdate := some { currentStep := some (some .DEVELOP) } }

/-- The state after create, add-with-step, and one completed step:
    feature 0 has `completedSteps = [DEVELOP]`, `currentStep = REVIEW`. -/
def developDoneState : Option YoomSession :=
  (completeCurrentStepSt
    ((updateSessionSt (createSessionSt none sampleOptions (str "t0")).1
        pendingWithStep (str "t1")).1)
    (str "t2")).1

/-- **C5 counterexample.** From a state reached by session operations
    alone, a single `updateSession` with a `featureUpdate` payload
    removes `DEVELOP` from `completedSteps`, and another sets
    `currentStep` to `DEVELOP` while `DEVELOP` is already completed —
    refuting both halves of the claim as stated over all operations. -/
theorem featureUpdate_breaks_monotonicity :
    (developDoneState.bind (fun s => getFeat s.features 0)).map
        (·.completedSteps) = some [.DEVELOP] ∧
    (((updateSessionSt developDoneState wipeCompleted (str "t3")).1.bind
        (fun s => getFeat s.features 0)).map (·.completedSteps)) = some [] ∧
    (((updateSessionSt developDoneState cursorBack (str "t3")).1.bind
        (fun s => getFeat s.features 0)).map
        (fun f => (f.currentStep, f.completedSteps.contains .DEVELOP))) =
      some (some .DEVELOP, true) := by
  exact ⟨rfl, rfl, rfl⟩


/-! ## C4 — persistence round trip

The development below proves, for sessions none of whose string fields
contain a backtick, that `loadSession` after `saveSession` recovers the
session exactly: the fence extraction returns precisely the embedded
`JSON.stringify` text, the JSON parser inverts the pretty renderer, and
the typed reading inverts the session encoder. A session whose note
contains fenced json text breaks the chain at the first step, because
the regex takes the *first* fenced block of the document. -/

/-- A digit character decodes back to its value. -/
theorem digitChar_spec (k : Nat) (h : k < 10) :
    isDigitChar (digitChar k) = true ∧ (digitChar k).toNat - 48 = k := by
  interval_cases k <;> exact ⟨by decide, by decide⟩

/-- `natCharsGo` is fuel-stable above the argument. -/
theorem natCharsGo_stable : ∀ (f1 f2 n : Nat), n < f1 → n < f2 →
    natCharsGo f1 n = natCharsGo f2 n
  | 0, _, n, h1, _ => absurd h1 (Nat.not_lt_zero n)
  | _ + 1, 0, n, _, h2 => absurd h2 (Nat.not_lt_zero n)
  | f1 + 1, f2 + 1, n, h1, h2 => by
    simp only [natCharsGo]
    by_cases h10 : n < 10
    · simp [h10]
    · have hd : n / 10 < n := Nat.div_lt_self (by omega) (by omega)
      rw [if_neg h10, if_neg h10,
        natCharsGo_stable f1 f2 (n / 10) (by omega) (by omega)]

/-- `natChars` unfolds by the last digit. -/
theorem natChars_unfold (n : Nat) :
    natChars n = (if n < 10 then [] else natChars (n / 10)) ++ [digitChar (n % 10)] := by
  have h1 : natChars n =
      if n < 10 then [digitChar n]
      else natCharsGo n (n / 10) ++ [digitChar (n % 10)] := rfl
  by_cases h10 : n < 10
  · rw [if_pos h10, List.nil_append, h1, if_pos h10, Nat.mod_eq_of_lt h10]
  · rw [if_neg h10, h1, if_neg h10]
    congr 1
    show natCharsGo n (n / 10) = natCharsGo (n / 10 + 1) (n / 10)
    exact natCharsGo_stable n (n / 10 + 1) (n / 10)
      (Nat.div_lt_self (by omega) (by omega)) (by omega)

/-- All rendered characters of a natural number are digits. -/
theorem natChars_digits (n : Nat) : ∀ c ∈ natChars n, isDigitChar c = true := by
  induction n using Nat.strong_induction_on with
  | _ n ih =>
    rw [natChars_unfold]
    intro c hc
    rcases List.mem_append.mp hc with hc' | hc'
    · by_cases h10 : n < 10
      · rw [if_pos h10] at hc'
        simp at hc'
      · rw [if_neg h10] at hc'
        exact ih (n / 10) (Nat.div_lt_self (by omega) (by omega)) c hc'
    · rcases List.mem_singleton.mp hc' with rfl
      exact (digitChar_spec (n % 10) (Nat.mod_lt _ (by omega))).1

theorem natChars_ne_nil (n : Nat) : natChars n ≠ [] := by
  rw [natChars_unfold]
  simp

/-- `natChars n` starts with a digit. -/
theorem natChars_head (n : Nat) :
    ∃ d t, natChars n = d :: t ∧ isDigitChar d = true := by
  cases h : natChars n with
  | nil => exact absurd h (natChars_ne_nil n)
  | cons d t =>
    exact ⟨d, t, rfl, natChars_digits n d (h ▸ List.mem_cons_self d t)⟩

/-- `digitsVal` over a final digit. -/
theorem digitsVal_snoc (ds : Str) (c : Char) :
    digitsVal (ds ++ [c]) = digitsVal ds * 10 + (c.toNat - 48) := by
  unfold digitsVal
  rw [List.foldl_append]
  rfl

/-- The rendered digits of `n` evaluate back to `n`. -/
theorem digitsVal_natChars (n : Nat) : digitsVal (natChars n) = n := by
  induction n using Nat.strong_induction_on with
  | _ n ih =>
    rw [natChars_unfold]
    by_cases h10 : n < 10
    · rw [if_pos h10, List.nil_append]
      show digitsVal [digitChar (n % 10)] = n
      have : digitsVal [digitChar (n % 10)] = (digitChar (n % 10)).toNat - 48 := by
        unfold digitsVal
        simp [List.foldl]
      rw [this, (digitChar_spec (n % 10) (Nat.mod_lt _ (by omega))).2,
        Nat.mod_eq_of_lt h10]
    · rw [if_neg h10, digitsVal_snoc,
        ih (n / 10) (Nat.div_lt_self (by omega) (by omega)),
        (digitChar_spec (n % 10) (Nat.mod_lt _ (by omega))).2]
      omega

/-- The continuation cannot extend a digit run. -/
def NoDigitHead (s : Str) : Prop :=
  ∀ c, s.head? = some c → isDigitChar c = false

theorem noDigitHead_nil : NoDigitHead [] := by
  intro c h
  simp at h

theorem noDigitHead_cons {c : Char} {t : Str} (h : isDigitChar c = false) :
    NoDigitHead (c :: t) := by
  intro c' h'
  simp only [List.head?] at h'
  cases h'
  exact h

/-- `takeDigits` does not start on a non-digit. -/
theorem takeDigits_stop (s : Str) (h : NoDigitHead s) : takeDigits s = ([], s) := by
  cases s with
  | nil => rfl
  | cons c t =>
    have := h c rfl
    simp [takeDigits, this]

/-- `takeDigits` consumes exactly a leading digit run. -/
theorem takeDigits_run (ds : Str) (hds : ∀ c ∈ ds, isDigitChar c = true)
    (rest : Str) (hrest : NoDigitHead rest) :
    takeDigits (ds ++ rest) = (ds, rest) := by
  induction ds with
  | nil => simpa using takeDigits_stop rest hrest
  | cons c t ih =>
    have hc := hds c (List.mem_cons_self c t)
    have ht := ih (fun x hx => hds x (List.mem_cons_of_mem c hx))
    simp [takeDigits, hc, ht]

/-- A digit is not a minus sign. -/
theorem digit_ne_minus {c : Char} (h : isDigitChar c = true) : c ≠ '-' := by
  intro rfl_eq
  subst rfl_eq
  exact absurd h (by decide)

/-- `readNumber` inverts `intChars` whenever the continuation cannot
    extend the digit run. -/
theorem readNumber_intChars (i : Int) (rest : Str) (h : NoDigitHead rest) :
    readNumber (intChars i ++ rest) = some (i, rest) := by
  by_cases hneg : i < 0
  · have harg : intChars i ++ rest = '-' :: (natChars i.natAbs ++ rest) := by
      simp [intChars, hneg]
    rw [harg]
    have hred : readNumber ('-' :: (natChars i.natAbs ++ rest)) =
        (let p := takeDigits (natChars i.natAbs ++ rest)
         if p.1 = [] then none else some (-(digitsVal p.1 : Int), p.2)) := by
      simp [readNumber]
    rw [hred, takeDigits_run _ (natChars_digits _) _ h]
    show (if natChars i.natAbs = [] then none
          else some (-(digitsVal (natChars i.natAbs) : Int), rest)) = some (i, rest)
    rw [if_neg (natChars_ne_nil i.natAbs), digitsVal_natChars]
    have hval : -((i.natAbs : Nat) : Int) = i := by omega
    rw [hval]
  · obtain ⟨d, t, hd, hdig⟩ := natChars_head i.toNat
    have harg : intChars i ++ rest = d :: (t ++ rest) := by
      simp [intChars, hneg, hd]
    rw [harg]
    have hred : readNumber (d :: (t ++ rest)) =
        (let p := takeDigits (d :: (t ++ rest))
         if p.1 = [] then none else some ((digitsVal p.1 : Int), p.2)) := by
      simp [readNumber, digit_ne_minus hdig]
    have htd : takeDigits (d :: (t ++ rest)) = (d :: t, rest) := by
      have h2 := takeDigits_run (natChars i.toNat) (natChars_digits _) rest h
      rw [hd] at h2
      simpa using h2
    rw [hred, htd]
    show (if (d :: t : Str) = [] then none
          else some ((digitsVal (d :: t) : Int), rest)) = some (i, rest)
    rw [if_neg (by simp)]
    have hv : digitsVal (d :: t) = i.toNat := by
      have h2 := digitsVal_natChars i.toNat
      rw [hd] at h2
      exact h2
    rw [hv]
    have hcast : ((i.toNat : Nat) : Int) = i := by omega
    rw [hcast]



/-- `hexVal` inverts `hexChar` on hex digits. -/
theorem hexVal_hexChar (d : Nat) (h : d < 16) : hexVal (hexChar d) = some d := by
  interval_cases d <;> rfl

/-- Reading one escaped character prepends the original character. -/
theorem readStringRest_escapeChar (c : Char) (u : Str) :
    readStringRest (escapeChar c ++ u) =
      (readStringRest u).map (fun p => (c :: p.1, p.2)) := by
  by_cases h1 : c = '"'
  · subst h1; rfl
  by_cases h2 : c = '\\'
  · subst h2; rfl
  by_cases h3 : c = '\n'
  · subst h3; rfl
  by_cases h4 : c = '\r'
  · subst h4; rfl
  by_cases h5 : c = '\t'
  · subst h5; rfl
  by_cases h6 : c = Char.ofNat 8
  · subst h6; rfl
  by_cases h7 : c = Char.ofNat 12
  · subst h7; rfl
  by_cases h8 : c.toNat < 32
  · have hesc : escapeChar c =
        ['\\', 'u', '0', '0', hexChar (c.toNat / 16), hexChar (c.toNat % 16)] := by
      simp [escapeChar, h1, h2, h3, h4, h5, h6, h7, h8]
    rw [hesc]
    show (match hexVal '0', hexVal '0', hexVal (hexChar (c.toNat / 16)),
            hexVal (hexChar (c.toNat % 16)) with
          | some a, some b, some d, some e =>
            (readStringRest u).map
              (fun p => (Char.ofNat (((a * 16 + b) * 16 + d) * 16 + e) :: p.1, p.2))
          | _, _, _, _ => none) =
        (readStringRest u).map (fun p => (c :: p.1, p.2))
    rw [hexVal_hexChar (c.toNat / 16) (by omega), hexVal_hexChar (c.toNat % 16) (by omega)]
    have hc : Char.ofNat (((0 * 16 + 0) * 16 + c.toNat / 16) * 16 + c.toNat % 16) = c := by
      have : ((0 * 16 + 0) * 16 + c.toNat / 16) * 16 + c.toNat % 16 = c.toNat := by omega
      rw [this, Char.ofNat_toNat]
    show (readStringRest u).map
        (fun p => (Char.ofNat (((0 * 16 + 0) * 16 + c.toNat / 16) * 16 + c.toNat % 16) :: p.1,
          p.2)) = _
    rw [hc]
  · have hesc : escapeChar c = [c] := by
      simp [escapeChar, h1, h2, h3, h4, h5, h6, h7, h8]
    rw [hesc]
    show readStringRest (c :: u) = _
    rw [readStringRest.eq_def]
    split
    · rename_i heq
      exact absurd heq (by simp)
    · rename_i heq; exact absurd (List.cons.inj heq).1 h1
    · rename_i heq; exact absurd (List.cons.inj heq).1 h2
    · rename_i heq; exact absurd (List.cons.inj heq).1 h2
    · rename_i c2 rest heq
      obtain ⟨rfl, rfl⟩ := List.cons.inj heq
      rfl

/-- Reading a fully escaped body stops at the closing quote. -/
theorem readStringRest_escStr (s rest : Str) :
    readStringRest (escStr s ++ '"' :: rest) = some (s, rest) := by
  induction s with
  | nil => rfl
  | cons c t ih =>
    have h1 : escStr (c :: t) = escapeChar c ++ escStr t := by
      simp [escStr]
    rw [h1, List.append_assoc, readStringRest_escapeChar, ih]
    rfl

/-- Whitespace characters are not digits. -/
theorem ws_not_digit {c : Char} (h : isWsChar c = true) : isDigitChar c = false := by
  simp only [isWsChar, Bool.or_eq_true, decide_eq_true_eq] at h
  rcases h with ((rfl | rfl) | rfl) | rfl <;> rfl

/-- Dropping whitespace skips an all-whitespace prefix. -/
theorem dropWs_ws_append (w s : Str) (hw : ∀ c ∈ w, isWsChar c = true) :
    dropWs (w ++ s) = dropWs s := by
  induction w with
  | nil => rfl
  | cons c t ih =>
    have hc := hw c (List.mem_cons_self c t)
    rw [List.cons_append]
    show (if isWsChar c then dropWs (t ++ s) else c :: (t ++ s)) = dropWs s
    rw [if_pos hc, ih (fun x hx => hw x (List.mem_cons_of_mem c hx))]

/-- Dropping whitespace stops at a non-whitespace head. -/
theorem dropWs_cons_of_not_ws {c : Char} (h : isWsChar c = false) (s : Str) :
    dropWs (c :: s) = c :: s := by
  show (if isWsChar c then dropWs s else c :: s) = c :: s
  rw [h]
  rfl

/-- The indentation string is all whitespace. -/
theorem indentStr_ws (n : Nat) : ∀ c ∈ indentStr n, isWsChar c = true := by
  intro c hc
  rw [indentStr] at hc
  rcases List.eq_of_mem_replicate hc with rfl
  rfl

/-- `parseJsonValue` ignores leading whitespace. -/
theorem parseValue_ws (fuel : Nat) (w s : Str) (hw : ∀ c ∈ w, isWsChar c = true) :
    parseJsonValue (fuel + 1) (w ++ s) = parseJsonValue (fuel + 1) s := by
  show (match dropWs (w ++ s) with
        | 'n' :: 'u' :: 'l' :: 'l' :: r => some (.jnull, r)
        | 't' :: 'r' :: 'u' :: 'e' :: r => some (.jbool true, r)
        | 'f' :: 'a' :: 'l' :: 's' :: 'e' :: r => some (.jbool false, r)
        | '"' :: r => (readStringRest r).map (fun p => (.jstr p.1, p.2))
        | '[' :: r =>
          (match dropWs r with
           | ']' :: r2 => some (.jarr [], r2)
           | r2 => (parseJsonItems fuel r2).map (fun p => (.jarr p.1, p.2)))
        | c :: r =>
          if c = lcurly then
            match dropWs r with
            | c2 :: r2 =>
              if c2 = rcurly then some (.jobj [], r2)
              else (parseJsonFields fuel (c2 :: r2)).map (fun p => (.jobj p.1, p.2))
            | [] => none
          else if c = '-' || isDigitChar c then
            (readNumber (c :: r)).map (fun p => (.jnum p.1, p.2))
          else none
        | [] => none) = parseJsonValue (fuel + 1) s
  rw [dropWs_ws_append w s hw]
  rfl

/-- `natChars` starts with the rendering of some digit. -/
theorem natChars_head_digitChar (n : Nat) :
    ∃ k t, k < 10 ∧ natChars n = digitChar k :: t := by
  induction n using Nat.strong_induction_on with
  | _ n ih =>
    rw [natChars_unfold]
    by_cases h10 : n < 10
    · exact ⟨n % 10, [], by omega, by rw [if_pos h10, List.nil_append]⟩
    · obtain ⟨k, t, hk, ht⟩ := ih (n / 10) (Nat.div_lt_self (by omega) (by omega))
      exact ⟨k, t ++ [digitChar (n % 10)], hk, by rw [if_neg h10, ht, List.cons_append]⟩

/-! Fuel adequate for parsing a rendered value: `1` per `parseJsonValue`
    call plus `1` per `parseJsonItems`/`parseJsonFields` call. -/

mutual
def jsonFuel : Json → Nat
  | .jnull => 1
  | .jbool _ => 1
  | .jnum _ => 1
  | .jstr _ => 1
  | .jarr es => 1 + itemsFuel es
  | .jobj fs => 1 + fieldsFuel fs
def itemsFuel : List Json → Nat
  | [] => 0
  | e :: es => 1 + max (jsonFuel e) (itemsFuel es)
def fieldsFuel : List (Str × Json) → Nat
  | [] => 0
  | f :: fs => 1 + max (jsonFuel f.2) (fieldsFuel fs)
end

mutual
theorem jsonFuel_le (ind : Nat) (j : Json) : jsonFuel j ≤ (renderJson ind j).length := by
  cases j with
  | jnull => simp [jsonFuel, renderJson, str]
  | jbool b => cases b <;> simp [jsonFuel, renderJson, str]
  | jnum i =>
    have : intChars i ≠ [] := by
      rw [intChars]
      by_cases hneg : i < 0
      · simp [hneg]
      · simp [hneg, natChars_ne_nil]
    have := List.length_pos_of_ne_nil this
    simp only [jsonFuel, renderJson]
    omega
  | jstr s => simp [jsonFuel, renderJson, quoteStr]
  | jarr es =>
    cases es with
    | nil => simp [jsonFuel, itemsFuel, renderJson, str]
    | cons e es =>
      have h1 := jsonFuel_le (ind + 2) e
      have h2 := itemsFuel_le_sep (ind + 2) es
      simp only [jsonFuel, itemsFuel, renderJson, renderItems, List.length_cons,
        List.length_append, indentStr, List.length_replicate]
      omega
  | jobj fs =>
    cases fs with
    | nil => simp [jsonFuel, fieldsFuel, renderJson]
    | cons f fs =>
      have h1 := jsonFuel_le (ind + 2) f.2
      have h2 := fieldsFuel_le_sep (ind + 2) fs
      simp only [jsonFuel, fieldsFuel, renderJson, renderFields, List.length_cons,
        List.length_append, indentStr, List.length_replicate]
      omega
theorem itemsFuel_le_sep (ind : Nat) (es : List Json) :
    itemsFuel es ≤ (renderItemsSep ind es).length := by
  cases es with
  | nil => simp [itemsFuel, renderItemsSep]
  | cons e es =>
    have h1 := jsonFuel_le ind e
    have h2 := itemsFuel_le_sep ind es
    simp only [itemsFuel, renderItemsSep, List.length_cons, List.length_append,
      indentStr, List.length_replicate]
    omega
theorem fieldsFuel_le_sep (ind : Nat) (fs : List (Str × Json)) :
    fieldsFuel fs ≤ (renderFieldsSep ind fs).length := by
  cases fs with
  | nil => simp [fieldsFuel, renderFieldsSep]
  | cons f fs =>
    have h1 := jsonFuel_le ind f.2
    have h2 := fieldsFuel_le_sep ind fs
    simp only [fieldsFuel, renderFieldsSep, List.length_cons, List.length_append,
      indentStr, List.length_replicate]
    omega
end

/-! Head-token step lemmas for `parseJsonValue`. -/

theorem parseValue_null_step (fuel : Nat) (r : Str) :
    parseJsonValue (fuel + 1) ('n' :: 'u' :: 'l' :: 'l' :: r) = some (.jnull, r) := rfl

theorem parseValue_true_step (fuel : Nat) (r : Str) :
    parseJsonValue (fuel + 1) ('t' :: 'r' :: 'u' :: 'e' :: r) = some (.jbool true, r) := rfl

theorem parseValue_false_step (fuel : Nat) (r : Str) :
    parseJsonValue (fuel + 1) ('f' :: 'a' :: 'l' :: 's' :: 'e' :: r) =
      some (.jbool false, r) := rfl

theorem parseValue_str_step (fuel : Nat) (r : Str) :
    parseJsonValue (fuel + 1) ('"' :: r) =
      (readStringRest r).map (fun p => (.jstr p.1, p.2)) := rfl

theorem parseValue_minus_step (fuel : Nat) (r : Str) :
    parseJsonValue (fuel + 1) ('-' :: r) =
      (readNumber ('-' :: r)).map (fun p => (.jnum p.1, p.2)) := rfl

theorem parseValue_digit_step (fuel : Nat) (k : Nat) (hk : k < 10) (r : Str) :
    parseJsonValue (fuel + 1) (digitChar k :: r) =
      (readNumber (digitChar k :: r)).map (fun p => (.jnum p.1, p.2)) := by
  interval_cases k <;> rfl

/-- Parsing a rendered integer. -/
theorem parseValue_num (fuel : Nat) (i : Int) (rest : Str) (h : NoDigitHead rest) :
    parseJsonValue (fuel + 1) (intChars i ++ rest) = some (.jnum i, rest) := by
  by_cases hneg : i < 0
  · have harg : intChars i ++ rest = '-' :: (natChars i.natAbs ++ rest) := by
      simp [intChars, hneg]
    have hrn := readNumber_intChars i rest h
    rw [harg] at hrn ⊢
    rw [parseValue_minus_step, hrn]
    rfl
  · obtain ⟨k, t, hk, ht⟩ := natChars_head_digitChar i.toNat
    have harg : intChars i ++ rest = digitChar k :: (t ++ rest) := by
      simp [intChars, hneg, ht]
    have hrn := readNumber_intChars i rest h
    rw [harg] at hrn ⊢
    rw [parseValue_digit_step fuel k hk, hrn]
    rfl

theorem parseValue_arr_step (fuel : Nat) (r : Str) :
    parseJsonValue (fuel + 1) ('[' :: r) =
      (match dropWs r with
       | ']' :: r2 => some (.jarr [], r2)
       | r2 => (parseJsonItems fuel r2).map (fun p => (.jarr p.1, p.2))) := rfl

theorem parseValue_obj_step (fuel : Nat) (r : Str) :
    parseJsonValue (fuel + 1) (lcurly :: r) =
      (match dropWs r with
       | c2 :: r2 =>
         if c2 = rcurly then some (.jobj [], r2)
         else (parseJsonFields fuel (c2 :: r2)).map (fun p => (.jobj p.1, p.2))
       | [] => none) := rfl

theorem parseItems_step (fuel : Nat) (s : Str) :
    parseJsonItems (fuel + 1) s =
      (match parseJsonValue fuel s with
       | none => none
       | some (v, r) =>
         match dropWs r with
         | ',' :: r2 => (parseJsonItems fuel r2).map (fun p => (v :: p.1, p.2))
         | ']' :: r2 => some ([v], r2)
         | _ => none) := rfl

theorem parseFields_step (fuel : Nat) (s body : Str) (h : dropWs s = '"' :: body) :
    parseJsonFields (fuel + 1) s =
      (match readStringRest body with
       | none => none
       | some (k, r1) =>
         match dropWs r1 with
         | ':' :: r2 =>
           (match parseJsonValue fuel r2 with
            | none => none
            | some (v, r3) =>
              match dropWs r3 with
              | ',' :: r4 => (parseJsonFields fuel r4).map (fun p => ((k, v) :: p.1, p.2))
              | c4 :: r4 =>
                if c4 = rcurly then some ([(k, v)], r4) else none
              | [] => none)
         | _ => none) := by
  show (match dropWs s with
        | '"' :: r =>
          (match readStringRest r with
           | none => none
           | some (k, r1) =>
             match dropWs r1 with
             | ':' :: r2 =>
               (match parseJsonValue fuel r2 with
                | none => none
                | some (v, r3) =>
                  match dropWs r3 with
                  | ',' :: r4 => (parseJsonFields fuel r4).map (fun p => ((k, v) :: p.1, p.2))
                  | c4 :: r4 =>
                    if c4 = rcurly then some ([(k, v)], r4) else none
                  | [] => none)
             | _ => none)
        | _ => none : Option (List (Str × Json) × Str)) = _
  rw [h]
  rfl

theorem digitChar_facts (k : Nat) (hk : k < 10) :
    isWsChar (digitChar k) = false ∧ digitChar k ≠ ']' ∧ digitChar k ≠ rcurly := by
  interval_cases k <;> exact ⟨by decide, by decide, by decide⟩

/-- The first character of a rendered value is never whitespace nor a
    closing bracket. -/
theorem renderJson_head (ind : Nat) (j : Json) :
    ∃ c t, renderJson ind j = c :: t ∧ isWsChar c = false ∧ c ≠ ']' ∧ c ≠ rcurly := by
  cases j with
  | jnull => exact ⟨'n', str "ull", rfl, by decide, by decide, by decide⟩
  | jbool b =>
    cases b with
    | true => exact ⟨'t', str "rue", rfl, by decide, by decide, by decide⟩
    | false => exact ⟨'f', str "alse", rfl, by decide, by decide, by decide⟩
  | jnum i =>
    by_cases hneg : i < 0
    · exact ⟨'-', natChars i.natAbs, by simp [renderJson, intChars, hneg],
        by decide, by decide, by decide⟩
    · obtain ⟨k, t, hk, ht⟩ := natChars_head_digitChar i.toNat
      obtain ⟨hws, hb, hc⟩ := digitChar_facts k hk
      exact ⟨digitChar k, t, by simp [renderJson, intChars, hneg, ht], hws, hb, hc⟩
  | jstr s => exact ⟨'"', escStr s ++ ['"'], rfl, by decide, by decide, by decide⟩
  | jarr es =>
    cases es with
    | nil => exact ⟨'[', [']'], rfl, by decide, by decide, by decide⟩
    | cons e es =>
      exact ⟨'[', '\n' :: (renderItems (ind + 2) (e :: es) ++
        '\n' :: (indentStr ind ++ [']'])), rfl, by decide, by decide, by decide⟩
  | jobj fs =>
    cases fs with
    | nil => exact ⟨lcurly, [rcurly], rfl, by decide, by decide, by decide⟩
    | cons f fs =>
      exact ⟨lcurly, '\n' :: (renderFields (ind + 2) (f :: fs) ++
        '\n' :: (indentStr ind ++ [rcurly])), rfl, by decide, by decide, by decide⟩

theorem jsonFuel_pos (j : Json) : 1 ≤ jsonFuel j := by
  cases j <;> simp [jsonFuel]

theorem nlIndent_ws (n : Nat) : ∀ c ∈ '\n' :: indentStr n, isWsChar c = true := by
  intro c hc
  rcases List.mem_cons.mp hc with rfl | hc
  · rfl
  · exact indentStr_ws n c hc

theorem noDigitHead_close (w : Str) (hw : ∀ c ∈ w, isWsChar c = true)
    (c : Char) (hc : isDigitChar c = false) (rest : Str) :
    NoDigitHead (w ++ c :: rest) := by
  cases w with
  | nil => exact noDigitHead_cons hc
  | cons cw tw =>
    exact noDigitHead_cons (ws_not_digit (hw cw (List.mem_cons_self cw tw)))

theorem rt_all : ∀ fuel : Nat,
    (∀ ind (j : Json) (rest : Str), jsonFuel j ≤ fuel → NoDigitHead rest →
      parseJsonValue fuel (renderJson ind j ++ rest) = some (j, rest)) ∧
    (∀ ind (e : Json) (es : List Json) (lead w rest : Str),
      (∀ c ∈ lead, isWsChar c = true) → (∀ c ∈ w, isWsChar c = true) →
      itemsFuel (e :: es) ≤ fuel →
      parseJsonItems fuel
        (lead ++ (renderJson ind e ++ (renderItemsSep ind es ++ (w ++ ']' :: rest)))) =
        some (e :: es, rest)) ∧
    (∀ ind (k : Str) (v : Json) (fs : List (Str × Json)) (lead w rest : Str),
      (∀ c ∈ lead, isWsChar c = true) → (∀ c ∈ w, isWsChar c = true) →
      fieldsFuel ((k, v) :: fs) ≤ fuel →
      parseJsonFields fuel
        (lead ++ (quoteStr k ++ (':' :: ' ' ::
          (renderJson ind v ++ (renderFieldsSep ind fs ++ (w ++ rcurly :: rest)))))) =
        some ((k, v) :: fs, rest)) := by
  intro fuel
  induction fuel with
  | zero =>
    refine ⟨?_, ?_, ?_⟩
    · intro ind j rest hfuel _
      exact absurd hfuel (by have := jsonFuel_pos j; omega)
    · intro ind e es lead w rest _ _ hfuel
      exact absurd hfuel (by simp [itemsFuel])
    · intro ind k v fs lead w rest _ _ hfuel
      exact absurd hfuel (by simp [fieldsFuel])
  | succ g IH =>
    refine ⟨?_, ?_, ?_⟩
    · -- values
      intro ind j rest hfuel hrest
      cases j with
      | jnull => exact parseValue_null_step g rest
      | jbool b => cases b
                   · exact parseValue_false_step g rest
                   · exact parseValue_true_step g rest
      | jnum i => exact parseValue_num g i rest hrest
      | jstr s =>
        show parseJsonValue (g + 1) ('"' :: ((escStr s ++ ['"']) ++ rest)) =
          some (.jstr s, rest)
        rw [parseValue_str_step, List.append_assoc,
          show (['"'] ++ rest : Str) = '"' :: rest from rfl, readStringRest_escStr]
        rfl
      | jarr es =>
        cases es with
        | nil => exact rfl
        | cons e es =>
          show parseJsonValue (g + 1) ('[' :: ('\n' ::
            ((renderItems (ind + 2) (e :: es) ++
              '\n' :: (indentStr ind ++ [']'])) ++ rest))) = some (.jarr (e :: es), rest)
          rw [parseValue_arr_step]
          obtain ⟨c, t, hct, hws, hcb, hcc⟩ := renderJson_head (ind + 2) e
          have hr : ('\n' :: ((renderItems (ind + 2) (e :: es) ++
              '\n' :: (indentStr ind ++ [']'])) ++ rest) : Str) =
              ('\n' :: indentStr (ind + 2)) ++
                (renderJson (ind + 2) e ++ (renderItemsSep (ind + 2) es ++
                  ('\n' :: (indentStr ind ++ (']' :: rest))))) := by
            simp [renderItems, List.append_assoc]
          rw [hr, dropWs_ws_append _ _ (nlIndent_ws (ind + 2)), hct, List.cons_append,
            dropWs_cons_of_not_ws hws]
          have hIH := IH.2.1 (ind + 2) e es [] ('\n' :: indentStr ind) rest
            (by intro x hx; simp at hx) (nlIndent_ws ind)
            (by simp only [jsonFuel] at hfuel; omega)
          simp only [List.nil_append, List.cons_append] at hIH
          split
          · rename_i heq
            exact absurd (List.cons.inj heq).1 hcb
          · rw [← List.cons_append, ← hct, hIH]
            rfl
      | jobj fs =>
        cases fs with
        | nil => exact rfl
        | cons f fs =>
          obtain ⟨k, v⟩ := f
          show parseJsonValue (g + 1) (lcurly :: ('\n' ::
            ((renderFields (ind + 2) ((k, v) :: fs) ++
              '\n' :: (indentStr ind ++ [rcurly])) ++ rest))) =
            some (.jobj ((k, v) :: fs), rest)
          rw [parseValue_obj_step]
          have hr : ('\n' :: ((renderFields (ind + 2) ((k, v) :: fs) ++
              '\n' :: (indentStr ind ++ [rcurly])) ++ rest) : Str) =
              ('\n' :: indentStr (ind + 2)) ++
                ('"' :: (escStr k ++ ('"' :: (':' :: ' ' ::
                  (renderJson (ind + 2) v ++ (renderFieldsSep (ind + 2) fs ++
                    ('\n' :: (indentStr ind ++ (rcurly :: rest))))))))) := by
            simp [renderFields, quoteStr, List.append_assoc]
          rw [hr, dropWs_ws_append _ _ (nlIndent_ws (ind + 2)),
            dropWs_cons_of_not_ws (by decide)]
          have hIH := IH.2.2 (ind + 2) k v fs [] ('\n' :: indentStr ind) rest
            (by intro x hx; simp at hx) (nlIndent_ws ind)
            (by simp only [jsonFuel] at hfuel; omega)
          simp only [quoteStr, List.nil_append, List.cons_append, List.append_assoc,
            List.singleton_append] at hIH
          split
          · rename_i c2 r2 heq
            obtain ⟨h1, h2⟩ := List.cons.inj heq
            subst h1
            subst h2
            rw [if_neg (by decide), hIH]
            rfl
          · rename_i heq
            exact absurd heq (by simp)
    · -- items
      intro ind e es lead w rest hlead hw hfuel
      have hg1 : 1 ≤ g := by
        have := jsonFuel_pos e
        simp only [itemsFuel] at hfuel
        omega
      obtain ⟨g', rfl⟩ : ∃ g2, g = g2 + 1 := ⟨g - 1, by omega⟩
      rw [parseItems_step, parseValue_ws g' lead _ hlead]
      have hnd : NoDigitHead (renderItemsSep ind es ++ (w ++ ']' :: rest)) := by
        cases es with
        | nil =>
          show NoDigitHead ([] ++ (w ++ ']' :: rest))
          rw [List.nil_append]
          exact noDigitHead_close w hw ']' (by decide) rest
        | cons e2 es2 => exact noDigitHead_cons (by decide)
      rw [IH.1 ind e _ (by simp only [itemsFuel] at hfuel; omega) hnd]
      cases es with
      | nil =>
        have hX : dropWs (renderItemsSep ind ([] : List Json) ++ (w ++ ']' :: rest)) =
            ']' :: rest := by
          show dropWs ([] ++ (w ++ ']' :: rest)) = ']' :: rest
          rw [List.nil_append, dropWs_ws_append w _ hw, dropWs_cons_of_not_ws (by decide)]
        show (match dropWs (renderItemsSep ind ([] : List Json) ++ (w ++ ']' :: rest)) with
              | ',' :: r2 => (parseJsonItems (g' + 1) r2).map (fun p => (e :: p.1, p.2))
              | ']' :: r2 => some ([e], r2)
              | _ => none) = some ([e], rest)
        rw [hX]
        rfl
      | cons e2 es2 =>
        have hX : (renderItemsSep ind (e2 :: es2) ++ (w ++ ']' :: rest) : Str) =
            ',' :: ('\n' :: (indentStr ind ++ (renderJson ind e2 ++
              (renderItemsSep ind es2 ++ (w ++ ']' :: rest))))) := by
          simp [renderItemsSep, List.append_assoc]
        show (match dropWs (renderItemsSep ind (e2 :: es2) ++ (w ++ ']' :: rest)) with
              | ',' :: r2 => (parseJsonItems (g' + 1) r2).map (fun p => (e :: p.1, p.2))
              | ']' :: r2 => some ([e], r2)
              | _ => none) = some (e :: e2 :: es2, rest)
        rw [hX, dropWs_cons_of_not_ws (by decide)]
        show (parseJsonItems (g' + 1) ('\n' :: (indentStr ind ++ (renderJson ind e2 ++
            (renderItemsSep ind es2 ++ (w ++ ']' :: rest)))))).map
            (fun p => (e :: p.1, p.2)) = some (e :: e2 :: es2, rest)
        have hIH := IH.2.1 ind e2 es2 ('\n' :: indentStr ind) w rest
          (nlIndent_ws ind) hw (by simp only [itemsFuel] at hfuel ⊢; omega)
        simp only [List.cons_append] at hIH
        rw [hIH]
        rfl
    · -- fields
      intro ind k v fs lead w rest hlead hw hfuel
      have hg1 : 1 ≤ g := by
        have := jsonFuel_pos v
        simp only [fieldsFuel] at hfuel
        omega
      obtain ⟨g', rfl⟩ : ∃ g2, g = g2 + 1 := ⟨g - 1, by omega⟩
      have hdrop : dropWs (lead ++ (quoteStr k ++ (':' :: ' ' ::
          (renderJson ind v ++ (renderFieldsSep ind fs ++ (w ++ rcurly :: rest)))))) =
          '"' :: (escStr k ++ ('"' :: (':' :: ' ' ::
            (renderJson ind v ++ (renderFieldsSep ind fs ++ (w ++ rcurly :: rest)))))) := by
        rw [dropWs_ws_append lead _ hlead]
        have h1 : (quoteStr k ++ (':' :: ' ' ::
            (renderJson ind v ++ (renderFieldsSep ind fs ++ (w ++ rcurly :: rest)))) : Str) =
            '"' :: (escStr k ++ ('"' :: (':' :: ' ' ::
              (renderJson ind v ++ (renderFieldsSep ind fs ++ (w ++ rcurly :: rest)))))) := by
          simp [quoteStr, List.append_assoc]
        rw [h1, dropWs_cons_of_not_ws (by decide)]
      rw [parseFields_step (g' + 1) _ _ hdrop, readStringRest_escStr]
      show (match parseJsonValue (g' + 1) ([' '] ++ (renderJson ind v ++
            (renderFieldsSep ind fs ++ (w ++ rcurly :: rest)))) with
            | none => none
            | some (v2, r3) =>
              match dropWs r3 with
              | ',' :: r4 => (parseJsonFields (g' + 1) r4).map (fun p => ((k, v2) :: p.1, p.2))
              | c4 :: r4 => if c4 = rcurly then some ([(k, v2)], r4) else none
              | [] => none) = some ((k, v) :: fs, rest)
      rw [parseValue_ws g' [' '] _ (by intro x hx; rw [List.mem_singleton] at hx; subst hx; rfl)]
      have hnd : NoDigitHead (renderFieldsSep ind fs ++ (w ++ rcurly :: rest)) := by
        cases fs with
        | nil =>
          show NoDigitHead ([] ++ (w ++ rcurly :: rest))
          rw [List.nil_append]
          exact noDigitHead_close w hw rcurly (by decide) rest
        | cons f2 fs2 => exact noDigitHead_cons (by decide)
      rw [IH.1 ind v _ (by simp only [fieldsFuel] at hfuel; omega) hnd]
      cases fs with
      | nil =>
        have hZ : dropWs (renderFieldsSep ind ([] : List (Str × Json)) ++
            (w ++ rcurly :: rest)) = rcurly :: rest := by
          show dropWs ([] ++ (w ++ rcurly :: rest)) = rcurly :: rest
          rw [List.nil_append, dropWs_ws_append w _ hw, dropWs_cons_of_not_ws (by decide)]
        show (match dropWs (renderFieldsSep ind ([] : List (Str × Json)) ++
              (w ++ rcurly :: rest)) with
              | ',' :: r4 => (parseJsonFields (g' + 1) r4).map (fun p => ((k, v) :: p.1, p.2))
              | c4 :: r4 => if c4 = rcurly then some ([(k, v)], r4) else none
              | [] => none) = some ([(k, v)], rest)
        rw [hZ]
        rfl
      | cons f2 fs2 =>
        obtain ⟨k2, v2⟩ := f2
        have hZ : (renderFieldsSep ind ((k2, v2) :: fs2) ++ (w ++ rcurly :: rest) : Str) =
            ',' :: ('\n' :: (indentStr ind ++ (quoteStr k2 ++ (':' :: ' ' ::
              (renderJson ind v2 ++ (renderFieldsSep ind fs2 ++ (w ++ rcurly :: rest))))))) := by
          simp only [renderFieldsSep, List.append_assoc, List.cons_append]
        show (match dropWs (renderFieldsSep ind ((k2, v2) :: fs2) ++ (w ++ rcurly :: rest)) with
              | ',' :: r4 => (parseJsonFields (g' + 1) r4).map (fun p => ((k, v) :: p.1, p.2))
              | c4 :: r4 => if c4 = rcurly then some ([(k, v)], r4) else none
              | [] => none) = some ((k, v) :: (k2, v2) :: fs2, rest)
        rw [hZ, dropWs_cons_of_not_ws (by decide)]
        show (parseJsonFields (g' + 1) ('\n' :: (indentStr ind ++ (quoteStr k2 ++
            (':' :: ' ' :: (renderJson ind v2 ++ (renderFieldsSep ind fs2 ++
              (w ++ rcurly :: rest)))))))).map (fun p => ((k, v) :: p.1, p.2)) =
          some ((k, v) :: (k2, v2) :: fs2, rest)
        have hIH := IH.2.2 ind k2 v2 fs2 ('\n' :: indentStr ind) w rest
          (nlIndent_ws ind) hw (by simp only [fieldsFuel] at hfuel ⊢; omega)
        simp only [List.cons_append] at hIH
        rw [hIH]
        rfl

/-- `JSON.parse` inverts `JSON.stringify(·, null, 2)`. -/
theorem jsonParse_render (j : Json) : jsonParse (renderJson 0 j) = some j := by
  have hlen := jsonFuel_le 0 j
  have h := (rt_all (2 * (renderJson 0 j).length + 2)).1 0 j [] (by omega) noDigitHead_nil
  rw [List.append_nil] at h
  unfold jsonParse
  rw [h]
  rfl

/-- First fenced-json opening in a backtick-free prefix followed by a
    block that starts with the opening fence. -/
theorem findSub_fenceOpen (P X : Str) (hP : '`' ∉ P)
    (hpre : fenceOpen.isPrefixOf X = true) :
    findSub fenceOpen (P ++ X) = some P.length := by
  induction P with
  | nil =>
    cases X with
    | nil => exact absurd hpre (by decide)
    | cons xc xt =>
      show (if fenceOpen.isPrefixOf (xc :: xt) then some 0
            else (findSub fenceOpen xt).map (· + 1)) = some 0
      rw [if_pos hpre]
  | cons c P2 ih =>
    have hcc : ('`' == c) = false := by
      have : c ≠ '`' := fun h => hP (h ▸ List.mem_cons_self c P2)
      simp [Ne.symm this]
    have hne : fenceOpen.isPrefixOf (c :: (P2 ++ X)) = false := by
      show ((('`' : Char) == c) && _) = false
      rw [hcc]
      rfl
    show (if fenceOpen.isPrefixOf (c :: (P2 ++ X)) then some 0
          else (findSub fenceOpen (P2 ++ X)).map (· + 1)) = some (P2.length + 1)
    rw [if_neg (by simp [hne]), ih (fun h => hP (List.mem_cons_of_mem c h))]
    rfl

/-- The closing fence right after a backtick-free block is the first. -/
theorem findSub_fenceClose (J : Str) (hJ : '`' ∉ J) :
    findSub fenceClose (J ++ fenceClose) = some J.length := by
  induction J with
  | nil => rfl
  | cons c J2 ih =>
    have hne : fenceClose.isPrefixOf (c :: (J2 ++ fenceClose)) = false := by
      by_cases hcn : c = '\n'
      · subst hcn
        show ((('\n' : Char) == '\n') &&
          (('`' :: str "``").isPrefixOf (J2 ++ fenceClose))) = false
        have h2 : (('`' :: str "``") : Str).isPrefixOf (J2 ++ fenceClose) = false := by
          cases J2 with
          | nil => decide
          | cons c2 J3 =>
            have : c2 ≠ '`' := fun h =>
              hJ (List.mem_cons_of_mem _ (h ▸ List.mem_cons_self c2 J3))
            show ((('`' : Char) == c2) && _) = false
            simp [Ne.symm this]
        rw [h2]
        rfl
      · show ((('\n' : Char) == c) && _) = false
        simp [Ne.symm hcn]
    show (if fenceClose.isPrefixOf (c :: (J2 ++ fenceClose)) then some 0
          else (findSub fenceClose (J2 ++ fenceClose)).map (· + 1)) =
      some (J2.length + 1)
    rw [if_neg (by simp [hne]), ih (fun h => hJ (List.mem_cons_of_mem c h))]
    rfl

/-- The regex capture on a well-shaped document: the text between the
    first opening fence and the next closing fence. -/
theorem extractJsonBlock_spec (P J : Str) (hP : '`' ∉ P) (hJ : '`' ∉ J) :
    extractJsonBlock (P ++ (fenceOpen ++ (J ++ fenceClose))) = some J := by
  have h1 : findSub fenceOpen (P ++ (fenceOpen ++ (J ++ fenceClose))) = some P.length :=
    findSub_fenceOpen P _ hP
      (List.isPrefixOf_iff_prefix.mpr (List.prefix_append _ _))
  have h2 : (P ++ (fenceOpen ++ (J ++ fenceClose))).drop (P.length + fenceOpen.length) =
      J ++ fenceClose := by
    rw [← List.append_assoc,
      show P.length + fenceOpen.length = (P ++ fenceOpen).length by simp]
    exact List.drop_left _ _
  unfold extractJsonBlock
  rw [h1]
  show (match findSub fenceClose
        ((P ++ (fenceOpen ++ (J ++ fenceClose))).drop (P.length + fenceOpen.length)) with
        | none => none
        | some j => some (((P ++ (fenceOpen ++ (J ++ fenceClose))).drop
            (P.length + fenceOpen.length)).take j)) = some J
  rw [h2, findSub_fenceClose J hJ]
  show some ((J ++ fenceClose).take J.length) = some J
  rw [List.take_left]

/-- All lines the source pushes before the fenced block. -/
def preLines (s : YoomSession) : List Str :=
  headerLines s ++ configLines s ++ discoveryLines s ++ featuresLines s ++
    sessionNotesLines s ++ preFenceLines

theorem joinSep_append3 (sep : Str) (x : Str) (ls : List Str) (a b c : Str) :
    joinSep sep (x :: (ls ++ [a, b, c])) =
      joinSep sep (x :: ls) ++ sep ++ a ++ sep ++ b ++ sep ++ c := by
  induction ls generalizing x with
  | nil => simp [joinSep, List.append_assoc]
  | cons y ls2 ih =>
    show x ++ sep ++ joinSep sep (y :: (ls2 ++ [a, b, c])) = _
    rw [ih y]
    show _ = (x ++ sep ++ joinSep sep (y :: ls2)) ++ sep ++ a ++ sep ++ b ++ sep ++ c
    simp [List.append_assoc]

/-- The serialised document is the human-readable prefix followed by the
    fenced authoritative JSON block. -/
theorem format_decomp (s : YoomSession) :
    formatSessionMarkdown s =
      (joinSep ['\n'] (preLines s) ++ ['\n']) ++
        (fenceOpen ++ (sessionJsonStr s ++ fenceClose)) := by
  obtain ⟨x, ls, hx⟩ : ∃ x ls, preLines s = x :: ls := ⟨_, _, rfl⟩
  have h1 : formatSessionMarkdown s =
      joinSep ['\n'] (preLines s ++ [str "```json", sessionJsonStr s, str "```"]) := by
    unfold formatSessionMarkdown preLines
    simp [List.append_assoc]
  rw [h1, hx, List.cons_append, joinSep_append3, ← hx]
  have ha : str "```json" = ['`', '`', '`', 'j', 's', 'o', 'n'] := rfl
  have hb : str "```" = ['`', '`', '`'] := rfl
  have hc : fenceOpen = ['`', '`', '`', 'j', 's', 'o', 'n', '\n'] := rfl
  have hd : fenceClose = ['\n', '`', '`', '`'] := rfl
  rw [ha, hb, hc, hd]
  simp [List.append_assoc]

/-! ### Backtick-free sessions

The regex extraction is exact only when the document contains backticks
nowhere but at the fences; `sessionCleanB` states that no string field
of the session contains a backtick. -/

def noBt (s : Str) : Bool := s.all (fun c => !(c == '`'))

theorem noBt_spec {s : Str} (h : noBt s = true) : '`' ∉ s := by
  intro hmem
  have := List.all_eq_true.mp h '`' hmem
  simp at this

def featureCleanB (f : YoomFeature) : Bool :=
  noBt f.name && noBt f.description && f.notes.all noBt &&
    noBt f.createdAt && noBt f.updatedAt

def discoveryCleanB (d : DiscoveryResult) : Bool :=
  d.techStack.all noBt && d.constraints.all noBt && d.requirements.all noBt

/-- No string field of the session contains a backtick. -/
def sessionCleanB (s : YoomSession) : Bool :=
  noBt s.version && noBt s.createdAt && noBt s.lastActivityAt &&
    noBt s.config.framework && noBt s.config.scope && s.config.agents.all noBt &&
    s.features.all featureCleanB && s.notes.all noBt &&
    (match s.discovery with
     | none => true
     | some d => discoveryCleanB d)

mutual
def jsonNoBt : Json → Bool
  | .jnull => true
  | .jbool _ => true
  | .jnum _ => true
  | .jstr s => noBt s
  | .jarr es => itemsNoBt es
  | .jobj fs => fieldsNoBt fs
def itemsNoBt : List Json → Bool
  | [] => true
  | e :: es => jsonNoBt e && itemsNoBt es
def fieldsNoBt : List (Str × Json) → Bool
  | [] => true
  | f :: fs => noBt f.1 && jsonNoBt f.2 && fieldsNoBt fs
end

theorem natChars_noBt (n : Nat) : '`' ∉ natChars n := by
  intro h
  exact absurd (natChars_digits n '`' h) (by decide)

theorem intChars_noBt (i : Int) : '`' ∉ intChars i := by
  rw [intChars]
  by_cases hneg : i < 0
  · rw [if_pos hneg]
    intro h
    rcases List.mem_cons.mp h with h | h
    · exact absurd h (by decide)
    · exact natChars_noBt _ h
  · rw [if_neg hneg]
    exact natChars_noBt _

theorem hexChar_ne_bt (d : Nat) (hd : d < 16) : hexChar d ≠ '`' := by
  interval_cases d <;> decide

theorem escapeChar_noBt {x : Char} (hx : x ≠ '`') : '`' ∉ escapeChar x := by
  rw [escapeChar]
  split
  · decide
  · split
    · decide
    · split
      · decide
      · split
        · decide
        · split
          · decide
          · split
            · decide
            · split
              · decide
              · split
                · intro h
                  simp only [List.mem_cons] at h
                  rcases h with h | h | h | h | h | h | h
                  · exact absurd h (by decide)
                  · exact absurd h (by decide)
                  · exact absurd h (by decide)
                  · exact absurd h (by decide)
                  · exact hexChar_ne_bt _ (by omega) h.symm
                  · exact hexChar_ne_bt _ (by omega) h.symm
                  · simp at h
                · intro h
                  rcases List.mem_singleton.mp h with h
                  exact hx h.symm

theorem escStr_noBt {s : Str} (hs : '`' ∉ s) : '`' ∉ escStr s := by
  rw [escStr]
  intro h
  obtain ⟨x, hxs, hxe⟩ := List.mem_flatMap.mp h
  exact escapeChar_noBt (fun hh => hs (hh ▸ hxs)) hxe

theorem indent_noBt (n : Nat) : '`' ∉ indentStr n := by
  intro h
  rw [indentStr] at h
  exact absurd (List.eq_of_mem_replicate h) (by decide)

theorem quoteStr_noBt {s : Str} (hs : noBt s = true) : '`' ∉ quoteStr s := by
  intro h
  rcases List.mem_cons.mp h with h1 | h2
  · exact absurd h1 (by decide)
  rcases List.mem_append.mp h2 with h3 | h3
  · exact escStr_noBt (noBt_spec hs) h3
  · exact absurd (List.mem_singleton.mp h3) (by decide)

mutual
theorem renderJson_noBt (ind : Nat) (j : Json) (h : jsonNoBt j = true) :
    '`' ∉ renderJson ind j := by
  cases j with
  | jnull => exact (by decide : ('`' : Char) ∉ str "null")
  | jbool b =>
    cases b with
    | true => exact (by decide : ('`' : Char) ∉ str "true")
    | false => exact (by decide : ('`' : Char) ∉ str "false")
  | jnum i => exact intChars_noBt i
  | jstr s => exact quoteStr_noBt (by simpa [jsonNoBt] using h)
  | jarr es =>
    cases es with
    | nil => exact (by decide : ('`' : Char) ∉ str "[]")
    | cons e es =>
      have h2 : itemsNoBt (e :: es) = true := by simpa [jsonNoBt] using h
      intro hm
      simp only [renderJson] at hm
      rcases List.mem_cons.mp hm with h1 | hm
      · exact absurd h1 (by decide)
      rcases List.mem_cons.mp hm with h1 | hm
      · exact absurd h1 (by decide)
      rcases List.mem_append.mp hm with hm | hm
      · exact renderItems_noBt (ind + 2) (e :: es) h2 hm
      rcases List.mem_cons.mp hm with h1 | hm
      · exact absurd h1 (by decide)
      rcases List.mem_append.mp hm with hm | hm
      · exact indent_noBt ind hm
      · exact absurd (List.mem_singleton.mp hm) (by decide)
  | jobj fs =>
    cases fs with
    | nil => exact (by decide : ('`' : Char) ∉ [lcurly, rcurly])
    | cons f fs =>
      have h2 : fieldsNoBt (f :: fs) = true := by simpa [jsonNoBt] using h
      intro hm
      simp only [renderJson] at hm
      rcases List.mem_cons.mp hm with h1 | hm
      · exact absurd h1 (by decide)
      rcases List.mem_cons.mp hm with h1 | hm
      · exact absurd h1 (by decide)
      rcases List.mem_append.mp hm with hm | hm
      · exact renderFields_noBt (ind + 2) (f :: fs) h2 hm
      rcases List.mem_cons.mp hm with h1 | hm
      · exact absurd h1 (by decide)
      rcases List.mem_append.mp hm with hm | hm
      · exact indent_noBt ind hm
      · exact absurd (List.mem_singleton.mp hm) (by decide)
theorem renderItems_noBt (ind : Nat) (es : List Json) (h : itemsNoBt es = true) :
    '`' ∉ renderItems ind es := by
  cases es with
  | nil => simp [renderItems]
  | cons e es =>
    have he : jsonNoBt e = true := by
      simp only [itemsNoBt, Bool.and_eq_true] at h
      exact h.1
    have hes : itemsNoBt es = true := by
      simp only [itemsNoBt, Bool.and_eq_true] at h
      exact h.2
    intro hm
    simp only [renderItems] at hm
    rcases List.mem_append.mp hm with hm | hm
    · rcases List.mem_append.mp hm with hm | hm
      · exact indent_noBt ind hm
      · exact renderJson_noBt ind e he hm
    · exact renderItemsSep_noBt ind es hes hm
theorem renderItemsSep_noBt (ind : Nat) (es : List Json) (h : itemsNoBt es = true) :
    '`' ∉ renderItemsSep ind es := by
  cases es with
  | nil => simp [renderItemsSep]
  | cons e es =>
    have he : jsonNoBt e = true := by
      simp only [itemsNoBt, Bool.and_eq_true] at h
      exact h.1
    have hes : itemsNoBt es = true := by
      simp only [itemsNoBt, Bool.and_eq_true] at h
      exact h.2
    intro hm
    simp only [renderItemsSep] at hm
    rcases List.mem_cons.mp hm with h1 | hm
    · exact absurd h1 (by decide)
    rcases List.mem_cons.mp hm with h1 | hm
    · exact absurd h1 (by decide)
    rcases List.mem_append.mp hm with hm | hm
    · rcases List.mem_append.mp hm with hm | hm
      · exact indent_noBt ind hm
      · exact renderJson_noBt ind e he hm
    · exact renderItemsSep_noBt ind es hes hm
theorem renderFields_noBt (ind : Nat) (fs : List (Str × Json)) (h : fieldsNoBt fs = true) :
    '`' ∉ renderFields ind fs := by
  cases fs with
  | nil => simp [renderFields]
  | cons f fs =>
    have hk : noBt f.1 = true := by
      simp only [fieldsNoBt, Bool.and_eq_true] at h
      exact h.1.1
    have hv : jsonNoBt f.2 = true := by
      simp only [fieldsNoBt, Bool.and_eq_true] at h
      exact h.1.2
    have hfs : fieldsNoBt fs = true := by
      simp only [fieldsNoBt, Bool.and_eq_true] at h
      exact h.2
    obtain ⟨k, v⟩ := f
    intro hm
    simp only [renderFields] at hm
    rcases List.mem_append.mp hm with hm | hm
    · rcases List.mem_append.mp hm with hm | hm
      · rcases List.mem_append.mp hm with hm | hm
        · exact indent_noBt ind hm
        · exact quoteStr_noBt hk hm
      · rcases List.mem_cons.mp hm with h1 | hm
        · exact absurd h1 (by decide)
        rcases List.mem_cons.mp hm with h1 | hm
        · exact absurd h1 (by decide)
        exact renderJson_noBt ind v hv hm
    · exact renderFieldsSep_noBt ind fs hfs hm
theorem renderFieldsSep_noBt (ind : Nat) (fs : List (Str × Json))
    (h : fieldsNoBt fs = true) : '`' ∉ renderFieldsSep ind fs := by
  cases fs with
  | nil => simp [renderFieldsSep]
  | cons f fs =>
    have hk : noBt f.1 = true := by
      simp only [fieldsNoBt, Bool.and_eq_true] at h
      exact h.1.1
    have hv : jsonNoBt f.2 = true := by
      simp only [fieldsNoBt, Bool.and_eq_true] at h
      exact h.1.2
    have hfs : fieldsNoBt fs = true := by
      simp only [fieldsNoBt, Bool.and_eq_true] at h
      exact h.2
    obtain ⟨k, v⟩ := f
    intro hm
    simp only [renderFieldsSep] at hm
    rcases List.mem_cons.mp hm with h1 | hm
    · exact absurd h1 (by decide)
    rcases List.mem_cons.mp hm with h1 | hm
    · exact absurd h1 (by decide)
    rcases List.mem_append.mp hm with hm | hm
    · rcases List.mem_append.mp hm with hm | hm
      · rcases List.mem_append.mp hm with hm | hm
        · exact indent_noBt ind hm
        · exact quoteStr_noBt hk hm
      · rcases List.mem_cons.mp hm with h1 | hm
        · exact absurd h1 (by decide)
        rcases List.mem_cons.mp hm with h1 | hm
        · exact absurd h1 (by decide)
        exact renderJson_noBt ind v hv hm
    · exact renderFieldsSep_noBt ind fs hfs hm
end

theorem itemsNoBt_strs (l : List Str) (h : l.all noBt = true) :
    itemsNoBt (l.map Json.jstr) = true := by
  induction l with
  | nil => rfl
  | cons x xs ih =>
    simp only [List.all_cons, Bool.and_eq_true] at h
    simp [itemsNoBt, jsonNoBt, h.1, ih h.2]

theorem stepStr_noBt (st : FeatureStep) : noBt (stepStr st) = true := by
  cases st <;> decide

theorem statusStr_noBt (st : FeatureStatus) : noBt (statusStr st) = true := by
  cases st <;> decide

theorem projectTypeStr_noBt (pt : ProjectType) : noBt (projectTypeStr pt) = true := by
  cases pt <;> decide

theorem modeStr_noBt (m : YoomMode) : noBt (modeStr m) = true := by
  cases m <;> decide

theorem purposeStr_noBt (p : Purpose) : noBt (purposeStr p) = true := by
  cases p <;> decide

theorem itemsNoBt_steps (l : List FeatureStep) :
    itemsNoBt (l.map (fun s => Json.jstr (stepStr s))) = true := by
  induction l with
  | nil => rfl
  | cons x xs ih => simp [itemsNoBt, jsonNoBt, stepStr_noBt, ih]

theorem featureToJson_noBt (f : YoomFeature) (h : featureCleanB f = true) :
    jsonNoBt (featureToJson f) = true := by
  simp only [featureCleanB, Bool.and_eq_true] at h
  obtain ⟨⟨⟨⟨hn, hd⟩, hno⟩, hc⟩, hu⟩ := h
  cases hcs : f.currentStep with
  | none =>
    simp +decide [featureToJson, hcs, jsonNoBt, fieldsNoBt, hn, hd, hc, hu,
      itemsNoBt_strs _ hno, itemsNoBt_steps, statusStr_noBt]
  | some st =>
    simp +decide [featureToJson, hcs, jsonNoBt, fieldsNoBt, hn, hd, hc, hu,
      itemsNoBt_strs _ hno, itemsNoBt_steps, statusStr_noBt, stepStr_noBt]

theorem discoveryToJson_noBt (d : DiscoveryResult) (h : discoveryCleanB d = true) :
    jsonNoBt (discoveryToJson d) = true := by
  simp only [discoveryCleanB, Bool.and_eq_true] at h
  obtain ⟨⟨ht, hcn⟩, hr⟩ := h
  simp +decide [discoveryToJson, jsonNoBt, fieldsNoBt, purposeStr_noBt,
    itemsNoBt_strs _ ht, itemsNoBt_strs _ hcn, itemsNoBt_strs _ hr]

theorem featuresToJson_noBt (l : List YoomFeature) (h : l.all featureCleanB = true) :
    itemsNoBt (l.map featureToJson) = true := by
  induction l with
  | nil => rfl
  | cons x xs ih =>
    simp only [List.all_cons, Bool.and_eq_true] at h
    simp [itemsNoBt, featureToJson_noBt x h.1, ih h.2]

theorem sessionToJson_noBt (s : YoomSession) (h : sessionCleanB s = true) :
    jsonNoBt (sessionToJson s) = true := by
  simp only [sessionCleanB, Bool.and_eq_true] at h
  obtain ⟨⟨⟨⟨⟨⟨⟨⟨hv, hc⟩, hl⟩, hf⟩, hs⟩, ha⟩, hfe⟩, hn⟩, hd⟩ := h
  cases hds : s.discovery with
  | none =>
    simp +decide [sessionToJson, hds, jsonNoBt, fieldsNoBt, hv, hc, hl, hf, hs,
      projectTypeStr_noBt, modeStr_noBt, itemsNoBt_strs _ ha,
      featuresToJson_noBt _ hfe, itemsNoBt_strs _ hn]
  | some d =>
    have hd2 : discoveryCleanB d = true := by
      rw [hds] at hd
      exact hd
    simp +decide [sessionToJson, hds, jsonNoBt, fieldsNoBt, hv, hc, hl, hf, hs,
      projectTypeStr_noBt, modeStr_noBt, itemsNoBt_strs _ ha,
      featuresToJson_noBt _ hfe, itemsNoBt_strs _ hn]
    exact discoveryToJson_noBt d hd2

theorem joinSep_mem {c : Char} {sep : Str} {ls : List Str} (h : c ∈ joinSep sep ls) :
    c ∈ sep ∨ ∃ l ∈ ls, c ∈ l := by
  induction ls with
  | nil => simp [joinSep] at h
  | cons x ls ih =>
    cases ls with
    | nil =>
      right
      exact ⟨x, List.mem_cons_self x [], h⟩
    | cons y ls2 =>
      simp only [joinSep] at h
      rcases List.mem_append.mp h with h1 | h2
      · rcases List.mem_append.mp h1 with h3 | h3
        · exact Or.inr ⟨x, List.mem_cons_self _ _, h3⟩
        · exact Or.inl h3
      · rcases ih h2 with h3 | ⟨l, hl, hc⟩
        · exact Or.inl h3
        · exact Or.inr ⟨l, List.mem_cons_of_mem x hl, hc⟩

theorem joinSep_noBt {sep : Str} {ls : List Str} (hsep : '`' ∉ sep)
    (h : ∀ l ∈ ls, '`' ∉ l) : '`' ∉ joinSep sep ls := by
  intro hm
  rcases joinSep_mem hm with h1 | ⟨l, hl, hc⟩
  · exact hsep h1
  · exact h l hl hc

theorem noBt_append {a b : Str} (ha : '`' ∉ a) (hb : '`' ∉ b) : '`' ∉ a ++ b := by
  intro h
  rcases List.mem_append.mp h with h | h
  · exact ha h
  · exact hb h

theorem headerLines_noBt (s : YoomSession) (hc : '`' ∉ s.createdAt)
    (hl : '`' ∉ s.lastActivityAt) : ∀ l ∈ headerLines s, '`' ∉ l := by
  intro l hm
  simp only [headerLines, List.mem_cons] at hm
  rcases hm with rfl | rfl | rfl | rfl | rfl | hm
  · decide
  · decide
  · exact noBt_append (by decide) hc
  · exact noBt_append (by decide) hl
  · decide
  · simp at hm

theorem configLines_noBt (s : YoomSession) (hf : '`' ∉ s.config.framework)
    (hs : '`' ∉ s.config.scope) (ha : ∀ a ∈ s.config.agents, '`' ∉ a) :
    ∀ l ∈ configLines s, '`' ∉ l := by
  intro l hm
  simp only [configLines, List.mem_cons] at hm
  rcases hm with rfl | rfl | rfl | rfl | rfl | rfl | rfl | rfl | hm
  · decide
  · decide
  · refine noBt_append (by decide) ?_
    cases s.config.projectType <;> decide
  · exact noBt_append (by decide) hf
  · refine noBt_append (by decide) ?_
    cases s.config.mode <;> decide
  · exact noBt_append (by decide) hs
  · exact noBt_append (by decide) (joinSep_noBt (by decide) ha)
  · decide
  · simp at hm

theorem preFenceLines_noBt : ∀ l ∈ preFenceLines, '`' ∉ l := by
  decide

theorem discoveryLines_noBt (s : YoomSession)
    (hd : ∀ d, s.discovery = some d → discoveryCleanB d = true) :
    ∀ l ∈ discoveryLines s, '`' ∉ l := by
  intro l hm
  cases hds : s.discovery with
  | none =>
    rw [discoveryLines, hds] at hm
    simp at hm
  | some d =>
    have h2 := hd d hds
    simp only [discoveryCleanB, Bool.and_eq_true] at h2
    obtain ⟨⟨ht, hcn⟩, hr⟩ := h2
    have ht2 := fun x hx => noBt_spec (List.all_eq_true.mp ht x hx)
    have hcn2 := fun x hx => noBt_spec (List.all_eq_true.mp hcn x hx)
    have hr2 := fun x hx => noBt_spec (List.all_eq_true.mp hr x hx)
    rw [discoveryLines, hds] at hm
    rcases List.mem_append.mp hm with hm | hm
    · rcases List.mem_append.mp hm with hm | hm
      · rcases List.mem_append.mp hm with hm | hm
        · simp only [List.mem_cons] at hm
          rcases hm with rfl | rfl | rfl | rfl | hm
          · decide
          · decide
          · refine noBt_append (by decide) ?_
            cases d.purpose <;> decide
          · exact noBt_append (by decide) (joinSep_noBt (by decide) ht2)
          · simp at hm
        · by_cases h1 : 0 < d.constraints.length
          · rw [if_pos h1] at hm
            rcases List.mem_singleton.mp hm with rfl
            exact noBt_append (by decide) (joinSep_noBt (by decide) hcn2)
          · rw [if_neg h1] at hm
            simp at hm
      · by_cases h1 : 0 < d.requirements.length
        · rw [if_pos h1] at hm
          rcases List.mem_cons.mp hm with rfl | hm
          · decide
          · obtain ⟨req, hreq, rfl⟩ := List.mem_map.mp hm
            exact noBt_append (by decide) (hr2 req hreq)
        · rw [if_neg h1] at hm
          simp at hm
    · rcases List.mem_singleton.mp hm with rfl
      simp

theorem featureLines_noBt (cfi : Int) (i : Nat) (f : YoomFeature)
    (hf : featureCleanB f = true) : ∀ l ∈ featureLines cfi i f, '`' ∉ l := by
  simp only [featureCleanB, Bool.and_eq_true] at hf
  obtain ⟨⟨⟨⟨hn, hd⟩, hno⟩, _⟩, _⟩ := hf
  have hn2 := noBt_spec hn
  have hd2 := noBt_spec hd
  have hno2 := fun x hx => noBt_spec (List.all_eq_true.mp hno x hx)
  have hicon : ∀ st : FeatureStatus, '`' ∉ (if st = FeatureStatus.completed then str "✅"
      else if st = FeatureStatus.in_progress then str "🔄" else str "⏳") := by
    intro st
    split
    · decide
    split
    · decide
    · decide
  have hmark : '`' ∉ (if ((i : Int) = cfi) then str " 👈 CURRENT" else ([] : Str)) := by
    split
    · decide
    · simp
  intro l hm
  simp only [featureLines] at hm
  rcases List.mem_append.mp hm with hm | hm
  · rcases List.mem_append.mp hm with hm | hm
    · rcases List.mem_append.mp hm with hm | hm
      · rcases List.mem_append.mp hm with hm | hm
        · rcases List.mem_append.mp hm with hm | hm
          · simp only [List.mem_cons] at hm
            rcases hm with rfl | rfl | rfl | hm
            · exact noBt_append (noBt_append (noBt_append
                (noBt_append (by decide) (natChars_noBt _)) (by decide)) hn2) hmark
            · simp
            · exact noBt_append (noBt_append (hicon f.status) (by decide))
                (by cases f.status <;> decide)
            · simp at hm
          · rcases hcs : f.currentStep with _ | st
            · rw [hcs] at hm
              simp at hm
            · rw [hcs] at hm
              rcases List.mem_singleton.mp hm with rfl
              exact noBt_append (by decide) (by cases st <;> decide)
        · split at hm
          · simp at hm
          · rcases List.mem_singleton.mp hm with rfl
            exact noBt_append (by decide) hd2
      · rcases List.mem_singleton.mp hm with rfl
        simp
    · split at hm
      · rcases List.mem_append.mp hm with hm | hm
        · rcases List.mem_cons.mp hm with rfl | hm
          · decide
          · obtain ⟨st, hst, rfl⟩ := List.mem_map.mp hm
            refine noBt_append (noBt_append (noBt_append (by decide) ?_) (by decide))
              (by cases st <;> decide)
            split
            · decide
            split
            · decide
            · decide
        · rcases List.mem_singleton.mp hm with rfl
          simp
      · simp at hm
  · split at hm
    · rcases List.mem_append.mp hm with hm | hm
      · rcases List.mem_cons.mp hm with rfl | hm
        · decide
        · obtain ⟨note, hnote, rfl⟩ := List.mem_map.mp hm
          exact noBt_append (by decide) (hno2 note hnote)
      · rcases List.mem_singleton.mp hm with rfl
        simp
    · simp at hm

theorem featuresLines_noBt (s : YoomSession) (hfe : s.features.all featureCleanB = true) :
    ∀ l ∈ featuresLines s, '`' ∉ l := by
  intro l hm
  simp only [featuresLines] at hm
  rcases List.mem_append.mp hm with hm | hm
  · simp only [List.mem_cons] at hm
    rcases hm with rfl | rfl | hm
    · decide
    · simp
    · simp at hm
  · split at hm
    · rcases List.mem_singleton.mp hm with rfl
      decide
    · obtain ⟨L, hL, hlL⟩ := List.mem_flatten.mp hm
      obtain ⟨p, hp, rfl⟩ := List.mem_map.mp hL
      have hmem : p.2 ∈ s.features := by
        have := List.mem_enum_iff_getElem?.mp hp
        exact List.getElem?_mem this
      exact featureLines_noBt s.currentFeatureIndex p.1 p.2
        (List.all_eq_true.mp hfe p.2 hmem) l hlL

theorem sessionNotesLines_noBt (s : YoomSession) (hn : s.notes.all noBt = true) :
    ∀ l ∈ sessionNotesLines s, '`' ∉ l := by
  intro l hm
  rw [sessionNotesLines] at hm
  split at hm
  · rcases List.mem_append.mp hm with hm | hm
    · rcases List.mem_append.mp hm with hm | hm
      · simp only [List.mem_cons] at hm
        rcases hm with rfl | rfl | hm
        · decide
        · simp
        · simp at hm
      · obtain ⟨note, hnote, rfl⟩ := List.mem_map.mp hm
        exact noBt_append (by decide)
          (noBt_spec (List.all_eq_true.mp hn note hnote))
    · rcases List.mem_singleton.mp hm with rfl
      simp
  · simp at hm

/-- The entire human-readable prefix of a clean session is backtick-free. -/
theorem preText_noBt (s : YoomSession) (h : sessionCleanB s = true) :
    '`' ∉ joinSep ['\n'] (preLines s) ++ ['\n'] := by
  simp only [sessionCleanB, Bool.and_eq_true] at h
  obtain ⟨⟨⟨⟨⟨⟨⟨⟨_, hc⟩, hl⟩, hf⟩, hs⟩, ha⟩, hfe⟩, hn⟩, hd⟩ := h
  refine noBt_append (joinSep_noBt (by decide) ?_) (by decide)
  intro l hm
  simp only [preLines] at hm
  rcases List.mem_append.mp hm with hm | hm
  · rcases List.mem_append.mp hm with hm | hm
    · rcases List.mem_append.mp hm with hm | hm
      · rcases List.mem_append.mp hm with hm | hm
        · rcases List.mem_append.mp hm with hm | hm
          · exact headerLines_noBt s (noBt_spec hc) (noBt_spec hl) l hm
          · exact configLines_noBt s (noBt_spec hf) (noBt_spec hs)
              (fun a hx => noBt_spec (List.all_eq_true.mp ha a hx)) l hm
        · refine discoveryLines_noBt s ?_ l hm
          intro d hds
          rw [hds] at hd
          exact hd
      · exact featuresLines_noBt s hfe l hm
    · exact sessionNotesLines_noBt s hn l hm
  · exact preFenceLines_noBt l hm

theorem stepOfStr_stepStr (st : FeatureStep) : stepOfStr (stepStr st) = some st := by
  cases st <;> rfl

theorem statusOfStr_statusStr (st : FeatureStatus) :
    statusOfStr (statusStr st) = some st := by
  cases st <;> rfl

theorem projectTypeOfStr_str (pt : ProjectType) :
    projectTypeOfStr (projectTypeStr pt) = some pt := by
  cases pt <;> rfl

theorem modeOfStr_modeStr (m : YoomMode) : modeOfStr (modeStr m) = some m := by
  cases m <;> rfl

theorem purposeOfStr_purposeStr (p : Purpose) :
    purposeOfStr (purposeStr p) = some p := by
  cases p <;> rfl

theorem jStr?_jstr (s : Str) : jStr? (Json.jstr s) = some s := rfl

theorem mapM_loop_jStr (l : List Str) (acc : List Str) :
    List.mapM.loop jStr? (l.map Json.jstr) acc = some (acc.reverse ++ l) := by
  induction l generalizing acc with
  | nil => simp [List.mapM.loop]
  | cons x xs ih =>
    simp only [List.map_cons, List.mapM.loop, jStr?_jstr]
    show (some x).bind (fun b => List.mapM.loop jStr? (List.map Json.jstr xs) (b :: acc)) =
      some (acc.reverse ++ x :: xs)
    rw [Option.some_bind, ih]
    simp

theorem mapM_jStr (l : List Str) : List.mapM jStr? (l.map Json.jstr) = some l := by
  have := mapM_loop_jStr l []
  simpa [List.mapM] using this

theorem mapM_loop_steps (l : List FeatureStep) (acc : List FeatureStep) :
    List.mapM.loop (fun v => (jStr? v).bind stepOfStr)
      (l.map (fun s => Json.jstr (stepStr s))) acc = some (acc.reverse ++ l) := by
  induction l generalizing acc with
  | nil => simp [List.mapM.loop]
  | cons x xs ih =>
    have h1 : (jStr? (Json.jstr (stepStr x))).bind stepOfStr = some x := by
      rw [jStr?_jstr]
      exact stepOfStr_stepStr x
    simp only [List.map_cons, List.mapM.loop]
    show ((jStr? (Json.jstr (stepStr x))).bind stepOfStr).bind
        (fun b => List.mapM.loop (fun v => (jStr? v).bind stepOfStr)
          (List.map (fun s => Json.jstr (stepStr s)) xs) (b :: acc)) =
      some (acc.reverse ++ x :: xs)
    rw [h1, Option.some_bind, ih]
    simp

theorem mapM_steps (l : List FeatureStep) :
    List.mapM (fun v => (jStr? v).bind stepOfStr)
      (l.map (fun s => Json.jstr (stepStr s))) = some l := by
  have := mapM_loop_steps l []
  simpa [List.mapM] using this

set_option maxHeartbeats 1600000 in
theorem featureFromJson_featureToJson (f : YoomFeature) :
    featureFromJson (featureToJson f) = some f := by
  obtain ⟨name, desc, status, currentStep, completedSteps, notes, ca, ua⟩ := f
  cases currentStep with
  | none =>
    simp +decide [featureFromJson, featureToJson, jObj?, jGet, List.lookup,
      beq_eq_decide, jStr?_jstr, jArr?, statusOfStr_statusStr,
      mapM_jStr, mapM_steps, mapM_loop_jStr, mapM_loop_steps]
  | some st =>
    simp +decide [featureFromJson, featureToJson, jObj?, jGet, List.lookup,
      beq_eq_decide, jStr?_jstr, jArr?, statusOfStr_statusStr, stepOfStr_stepStr,
      mapM_jStr, mapM_steps, mapM_loop_jStr, mapM_loop_steps]

set_option maxHeartbeats 1600000 in
theorem discoveryFromJson_discoveryToJson (d : DiscoveryResult) :
    discoveryFromJson (discoveryToJson d) = some d := by
  obtain ⟨p, t, cn, r⟩ := d
  simp +decide [discoveryFromJson, discoveryToJson, jObj?, jGet, List.lookup,
    beq_eq_decide, jStr?_jstr, jArr?, purposeOfStr_purposeStr,
    mapM_jStr, mapM_loop_jStr]

theorem mapM_loop_features (l : List YoomFeature) (acc : List YoomFeature) :
    List.mapM.loop featureFromJson (l.map featureToJson) acc =
      some (acc.reverse ++ l) := by
  induction l generalizing acc with
  | nil => simp [List.mapM.loop]
  | cons x xs ih =>
    simp only [List.map_cons, List.mapM.loop, featureFromJson_featureToJson]
    show (some x).bind (fun b => List.mapM.loop featureFromJson
        (List.map featureToJson xs) (b :: acc)) = some (acc.reverse ++ x :: xs)
    rw [Option.some_bind, ih]
    simp

theorem mapM_features (l : List YoomFeature) :
    List.mapM featureFromJson (l.map featureToJson) = some l := by
  have := mapM_loop_features l []
  simpa [List.mapM] using this

set_option maxHeartbeats 3200000 in
/-- The typed reading of the cast result inverts the serialisation. -/
theorem sessionFromJson_sessionToJson (s : YoomSession) :
    sessionFromJson (sessionToJson s) = some s := by
  obtain ⟨v, ca, la, ⟨pt, fw, md, ag, sc⟩, disc, fe, cfi, no⟩ := s
  cases disc with
  | none =>
    simp +decide [sessionFromJson, sessionToJson, jObj?, jGet, List.lookup,
      beq_eq_decide, jStr?_jstr, jInt?, jArr?, configFromJson, projectTypeOfStr_str,
      modeOfStr_modeStr, mapM_jStr, mapM_features, mapM_loop_jStr, mapM_loop_features]
  | some d =>
    simp +decide [sessionFromJson, sessionToJson, jObj?, jGet, List.lookup,
      beq_eq_decide, jStr?_jstr, jInt?, jArr?, configFromJson, projectTypeOfStr_str,
      modeOfStr_modeStr, mapM_jStr, mapM_features, mapM_loop_jStr, mapM_loop_features,
      discoveryFromJson_discoveryToJson]

/-- A session whose note itself contains fenced json text. -/
def fencedNoteSession : YoomSession :=
  { baseSession with notes := [str "```json\n0\n```"] }

/-- **C4 (amended).** For every session none of whose string fields
    contains a backtick, persistence round-trips exactly. -/
theorem persistence_roundtrip (s : YoomSession) (h : sessionCleanB s = true) :
    loadSessionContent (saveSessionContent s) = some s ∧
    extractJsonBlock (saveSessionContent s) = some (sessionJsonStr s) ∧
    (∀ s2, loadSessionContent (saveSessionContent s) = some s2 →
      saveSessionContent s2 = saveSessionContent s) := by
  have hJ : '`' ∉ sessionJsonStr s := renderJson_noBt 0 _ (sessionToJson_noBt s h)
  have hP := preText_noBt s h
  have hext : extractJsonBlock (formatSessionMarkdown s) = some (sessionJsonStr s) := by
    rw [format_decomp s]
    exact extractJsonBlock_spec _ _ hP hJ
  have hload : loadSessionContent (formatSessionMarkdown s) = some s := by
    unfold loadSessionContent parseSessionMarkdown
    rw [hext, Option.some_bind,
      show sessionJsonStr s = renderJson 0 (sessionToJson s) from rfl,
      jsonParse_render, Option.some_bind, sessionFromJson_sessionToJson]
  refine ⟨hload, hext, ?_⟩
  intro s2 h2
  rw [show saveSessionContent s = formatSessionMarkdown s from rfl, hload] at h2
  cases h2
  rfl

theorem persistence_roundtrip_witness :
    sessionCleanB baseSession = true ∧
    loadSessionContent (saveSessionContent baseSession) = some baseSession :=
  ⟨by decide, (persistence_roundtrip baseSession (by decide)).1⟩

set_option maxRecDepth 100000 in
/-- **C4 counterexample.** A session whose note contains fenced json
    text does not round-trip: the regex takes the note's fence as the
    authoritative block and `loadSession` returns the Absent result. -/
theorem roundtrip_fails_on_fenced_note :
    loadSessionContent (saveSessionContent fencedNoteSession) = none ∧
    fencedNoteSession.notes.head? =
      some (str "```json" ++ '\n' :: str "0" ++ '\n' :: str "```") := by
  exact ⟨by decide, by decide⟩


end Yoom
